import Mathlib

/-!
# Verification of the RustgresQL storage core

A shallow embedding of the storage layer of an early-stage relational
database engine, together with proofs and refutations of its specified
properties.

Embedded components (translated from the source, file by file):

* the typed value codec (`src/storagemanager/serialization.rs`):
  `DataType`, `DataType::serialize`, `DataType::deserialize`, and the
  list / deque codecs of the `Serializable` trait;
* the slotted page (`src/page.rs`): `Header`, `Slot`, `Tuple`, `Page`,
  `append_tuple`, `Page::serialize`, `Page::deserialize`;
* the directory (`src/directory.rs`): `add_page`, `add_object`,
  `remove_object`, `remove_page`;
* the B-Tree (`src/main.rs`): `BTreeNode`, `search`, `insert_non_full`,
  `split_child`.

Modelling conventions:

* Bytes are natural numbers (the source produces values `< 256`; no claim
  depends on byte range, so the bound is not carried in the types).
* A Rust `String` is represented by its UTF-8 byte list; `as_bytes` and
  `String::from_utf8` then become the identity, which is faithful because
  a Rust `String` is always valid UTF-8.
* `i32` payloads are represented as `Int` (the mathematical value);
  arithmetic on them in the embedded code is exact, which is faithful for
  the in-range computations all claims are about.  `f64` payloads are
  represented by their 64-bit pattern as a `Nat`: the codec only moves
  their bytes, and the program's `==` on floats is reproduced by `f64Eq`
  below (IEEE equality on bit patterns).
* Host endianness (`ENDIANESS` in the source) is little-endian, the build
  configuration of the reference machine.
* Functions that can panic in Rust (out-of-range indexing, `unwrap`,
  failed `assert!`) are embedded as `Option`-returning functions, `none`
  meaning a panic.
* `VecDeque` is a Lean `List`; `push_back` appends, `push_front` conses.
-/

namespace Rustgres

/-- Little-endian byte decomposition of `n`, `k` bytes
(the wire form of `to_le_bytes` truncated/padded to `k` bytes). -/
def natLeBytes : Nat → Nat → List Nat
  | 0, _ => []
  | k + 1, n => (n % 256) :: natLeBytes k (n / 256)

/-- Little-endian recomposition of a byte list (`from_le_bytes`). -/
def leNat : List Nat → Nat
  | [] => 0
  | b :: bs => b % 256 + 256 * leNat bs

/-- `DataType` (src/storagemanager/serialization.rs).  `Varchar` holds the
UTF-8 bytes of the string, `Int32` the signed value, `Float64` the 64-bit
pattern. -/
inductive DataType where
  | Varchar (s : List Nat)
  | Int32 (n : Int)
  | Float64 (bits : Nat)
  | Bool (b : Bool)
  | Null
  deriving DecidableEq, Repr

namespace DataType

/-- `DataType::get_type`: the tag byte. -/
def get_type : DataType → Nat
  | .Varchar _ => 0x01
  | .Int32 _ => 0x02
  | .Float64 _ => 0x03
  | .Bool _ => 0x04
  | .Null => 0x00

end DataType

/-- The declared constraints on a value: Varchar content at most 32 bytes
(`MAX_STR_SIZE`), `i32` in range, `f64` a 64-bit pattern. -/
def wfDataType : DataType → Prop
  | .Varchar s => s.length ≤ 32
  | .Int32 n => -(2 ^ 31) ≤ n ∧ n < 2 ^ 31
  | .Float64 bits => bits < 2 ^ 64
  | .Bool _ => True
  | .Null => True

instance : DecidablePred wfDataType := fun v => by
  cases v <;> simp [wfDataType] <;> infer_instance

/-- The bit pattern of an `i32` value: `n` reinterpreted modulo `2^32`. -/
def toBits32 (n : Int) : Nat := (n % (2 ^ 32)).toNat

/-- The signed value of a 32-bit pattern. -/
def ofBits32 (u : Nat) : Int :=
  if u < 2 ^ 31 then (u : Int) else (u : Int) - 2 ^ 32

/-- IEEE-754 binary64 NaN test on a bit pattern: exponent all ones and
non-zero mantissa. -/
def f64IsNaN (bits : Nat) : Bool :=
  decide ((bits / 2 ^ 52) % 2 ^ 11 = 0x7FF) && decide (bits % 2 ^ 52 ≠ 0)

/-- IEEE-754 binary64 equality on bit patterns (the meaning of `==` on the
Rust `f64` payloads): false on NaN, `+0.0 == -0.0`, otherwise equality of
patterns. -/
def f64Eq (a b : Nat) : Bool :=
  if f64IsNaN a || f64IsNaN b then false
  else if a % 2 ^ 63 = 0 ∧ b % 2 ^ 63 = 0 then true
  else decide (a = b)

/-- The derived `PartialEq` on `DataType` (`==` in the program): structural
on all variants except `Float64`, which compares with IEEE `f64` equality. -/
def dtEq : DataType → DataType → Bool
  | .Varchar a, .Varchar b => decide (a = b)
  | .Int32 a, .Int32 b => decide (a = b)
  | .Float64 a, .Float64 b => f64Eq a b
  | .Bool a, .Bool b => decide (a = b)
  | .Null, .Null => true
  | _, _ => false

/-- `DataType::serialize`.  `none` is the panic on a Varchar whose length,
truncated to `u8` as the source does, exceeds `MAX_STR_SIZE = 32`. -/
def dtSerialize : DataType → Option (List Nat)
  | .Varchar s =>
      if 32 < s.length % 256 then none
      else some (0x01 :: (s.length % 256) :: (s ++ List.replicate (32 - s.length % 256) 0))
  | .Int32 n => some (0x02 :: natLeBytes 4 (toBits32 n))
  | .Float64 bits => some (0x03 :: natLeBytes 8 bits)
  | .Bool b => some (0x04 :: [if b then 1 else 0])
  | .Null => some [0x00, 0]

/-- `DataType::deserialize buffer offset`: returns the value and the new
offset; `none` is a panic (indexing or slicing past the buffer end).
The wildcard arm of the source's `match` maps every unrecognized tag byte
(including `0x00`) to `Null` and advances the offset by one more byte
without reading it. -/
def dtDeserialize (buf : List Nat) (off : Nat) : Option (DataType × Nat) :=
  match buf.get? off with
  | none => none
  | some tag =>
    if tag = 0x01 then
      match buf.get? (off + 1) with
      | none => none
      | some len =>
        if off + 2 + len ≤ buf.length then
          some (.Varchar ((buf.drop (off + 2)).take len), off + 2 + 32)
        else none
    else if tag = 0x02 then
      if off + 1 + 4 ≤ buf.length then
        some (.Int32 (ofBits32 (leNat ((buf.drop (off + 1)).take 4))), off + 1 + 4)
      else none
    else if tag = 0x03 then
      if off + 1 + 8 ≤ buf.length then
        some (.Float64 (leNat ((buf.drop (off + 1)).take 8)), off + 1 + 8)
      else none
    else if tag = 0x04 then
      match buf.get? (off + 1) with
      | none => none
      | some b => some (.Bool (decide (b ≠ 0)), off + 1 + 1)
    else
      some (.Null, off + 1 + 1)

/-- The fixed on-disk width of each kind of value. -/
def dtWidth : DataType → Nat
  | .Varchar _ => 34
  | .Int32 _ => 5
  | .Float64 _ => 9
  | .Bool _ => 2
  | .Null => 2

end Rustgres

namespace Rustgres

/-- Is the value a `Float64` NaN?  (Such a value is not `==` to itself.) -/
def isNaNValue : DataType → Bool
  | .Float64 bits => f64IsNaN bits
  | _ => false

theorem natLeBytes_length (k n : Nat) : (natLeBytes k n).length = k := by
  induction k generalizing n with
  | zero => rfl
  | succ k ih => simp [natLeBytes, ih]

theorem leNat_natLeBytes (k n : Nat) (h : n < 256 ^ k) :
    leNat (natLeBytes k n) = n := by
  induction k generalizing n with
  | zero => simp at h; simp [h, natLeBytes, leNat]
  | succ k ih =>
    have hd : n / 256 < 256 ^ k := by
      rw [Nat.div_lt_iff_lt_mul (by norm_num)]
      calc n < 256 ^ (k + 1) := h
        _ = 256 ^ k * 256 := by ring
    simp [natLeBytes, leNat, ih _ hd]
    omega

theorem ofBits32_toBits32 (n : Int) (h1 : -(2 ^ 31) ≤ n) (h2 : n < 2 ^ 31) :
    ofBits32 (toBits32 n) = n := by
  unfold ofBits32 toBits32
  have hm0 : 0 ≤ n % 2 ^ 32 := Int.emod_nonneg n (by norm_num)
  have hm1 : n % 2 ^ 32 < 2 ^ 32 := Int.emod_lt_of_pos n (by norm_num)
  have hdef : n % 2 ^ 32 = n - 2 ^ 32 * (n / 2 ^ 32) := Int.emod_def n (2 ^ 32)
  have htn : ((n % 2 ^ 32).toNat : Int) = n % 2 ^ 32 := Int.toNat_of_nonneg hm0
  set k := n / 2 ^ 32 with hk
  by_cases hlt : (n % 2 ^ 32).toNat < 2 ^ 31
  · simp only [hlt, if_pos]
    omega
  · simp only [hlt, if_neg, not_false_iff]
    omega

theorem toBits32_lt (n : Int) : toBits32 n < 2 ^ 32 := by
  unfold toBits32
  have hm1 : n % 2 ^ 32 < 2 ^ 32 := Int.emod_lt_of_pos n (by norm_num)
  omega

/-- The bytes `bs` stand at position `q` of `buf`. -/
@[reducible] def goodAt (buf : List Nat) (q : Nat) (bs : List Nat) : Prop :=
  (buf.drop q).take bs.length = bs

theorem goodAt_le_length {buf : List Nat} {q : Nat} {bs : List Nat}
    (h : goodAt buf q bs) (hne : bs.length ≠ 0) : q + bs.length ≤ buf.length := by
  unfold goodAt at h
  have := congrArg List.length h
  simp [List.length_take, List.length_drop] at this
  omega

theorem goodAt_append {buf : List Nat} {q : Nat} {a b : List Nat}
    (h : goodAt buf q (a ++ b)) :
    goodAt buf q a ∧ goodAt buf (q + a.length) b := by
  unfold goodAt at h ⊢
  rw [List.length_append] at h
  constructor
  · have h1 := congrArg (List.take a.length) h
    rwa [List.take_take, Nat.min_eq_left (Nat.le_add_right _ _),
      List.take_left] at h1
  · have h2 := congrArg (List.drop a.length) h
    rw [List.drop_take, List.drop_drop, List.drop_left,
      Nat.add_sub_cancel_left] at h2
    exact h2

theorem goodAt_get {buf : List Nat} {q : Nat} {bs : List Nat}
    (h : goodAt buf q bs) (j : Nat) (hj : j < bs.length) :
    buf.get? (q + j) = bs.get? j := by
  unfold goodAt at h
  have hlen := goodAt_le_length h
  rw [← h, List.get?_take hj, List.get?_drop]

theorem goodAt_take {buf : List Nat} {q : Nat} {bs : List Nat}
    (h : goodAt buf q bs) (m : Nat) (hm : m ≤ bs.length) :
    (buf.drop q).take m = bs.take m := by
  unfold goodAt at h
  rw [← h, List.take_take, Nat.min_def, if_pos hm]

theorem goodAt_self (bs : List Nat) : goodAt bs 0 bs := by
  simp [goodAt]


theorem dtSerialize_length {v : DataType} {bs : List Nat} (hwf : wfDataType v)
    (h : dtSerialize v = some bs) : bs.length = dtWidth v := by
  cases v with
  | Varchar s =>
    have hwf' : s.length ≤ 32 := hwf
    have hlen : s.length % 256 = s.length := Nat.mod_eq_of_lt (by omega)
    rw [dtSerialize, hlen, if_neg (by omega)] at h
    cases h
    simp [dtWidth]
    omega
  | Int32 n => cases h; simp [dtWidth, natLeBytes_length]
  | Float64 bits => cases h; simp [dtWidth, natLeBytes_length]
  | Bool b => cases h; simp [dtWidth]
  | Null => cases h; simp [dtWidth]

/-- Decoding a buffer that holds the encoding of a well-formed value `v` at
position `q` succeeds, returns `v` itself (structurally), and advances the
offset by exactly the fixed width of `v`'s kind. -/
theorem dtDeserialize_goodAt {v : DataType} {bs buf : List Nat} {q : Nat}
    (hwf : wfDataType v) (hser : dtSerialize v = some bs) (hg : goodAt buf q bs) :
    dtDeserialize buf q = some (v, q + dtWidth v) := by
  have hblen : bs.length = dtWidth v := dtSerialize_length hwf hser
  have hne : bs.length ≠ 0 := by rw [hblen]; cases v <;> simp [dtWidth]
  have hle : q + bs.length ≤ buf.length := goodAt_le_length hg hne
  rw [hblen] at hle
  cases v with
  | Varchar s =>
    have hwf' : s.length ≤ 32 := hwf
    have hlen : s.length % 256 = s.length := Nat.mod_eq_of_lt (by omega)
    rw [dtSerialize, hlen, if_neg (by omega)] at hser
    cases hser
    have hg2 : goodAt buf q ([1, s.length] ++ (s ++ List.replicate (32 - s.length) 0)) := hg
    obtain ⟨hga, hgb⟩ := goodAt_append hg2
    have h0 := goodAt_get hga 0 (by simp)
    have h1 := goodAt_get hga 1 (by simp)
    simp at h0 h1
    have hval : (buf.drop (q + 2)).take s.length = s := by
      have := goodAt_take hgb s.length (by simp)
      rwa [List.take_left, show q + [1, s.length].length = q + 2 by rfl] at this
    have hguard : q + 2 + s.length ≤ buf.length := by
      simp [dtWidth] at hle; omega
    simp [dtDeserialize, h0, h1, hguard, hval, dtWidth]
  | Int32 n =>
    cases hser
    obtain ⟨hga, hgb⟩ := @goodAt_append _ _ [2] (natLeBytes 4 (toBits32 n)) hg
    have h0 := goodAt_get hga 0 (by simp)
    simp at h0
    have hval : (buf.drop (q + 1)).take 4 = natLeBytes 4 (toBits32 n) := by
      have := goodAt_take hgb (natLeBytes 4 (toBits32 n)).length (le_refl _)
      rwa [List.take_length, natLeBytes_length] at this
    have hguard : q + 1 + 4 ≤ buf.length := by simp [dtWidth] at hle; omega
    have hu : leNat ((buf.drop (q + 1)).take 4) = toBits32 n := by
      rw [hval]
      exact leNat_natLeBytes 4 _ (by have := toBits32_lt n; norm_num at this ⊢; omega)
    simp [dtDeserialize, h0, hguard, hu, ofBits32_toBits32 n hwf.1 hwf.2, dtWidth]
  | Float64 bits =>
    cases hser
    obtain ⟨hga, hgb⟩ := @goodAt_append _ _ [3] (natLeBytes 8 bits) hg
    have h0 := goodAt_get hga 0 (by simp)
    simp at h0
    have hval : (buf.drop (q + 1)).take 8 = natLeBytes 8 bits := by
      have := goodAt_take hgb (natLeBytes 8 bits).length (le_refl _)
      rwa [List.take_length, natLeBytes_length] at this
    have hguard : q + 1 + 8 ≤ buf.length := by simp [dtWidth] at hle; omega
    have hu : leNat ((buf.drop (q + 1)).take 8) = bits := by
      rw [hval]
      exact leNat_natLeBytes 8 _ (by have : bits < 2 ^ 64 := hwf; norm_num at this ⊢; omega)
    simp [dtDeserialize, h0, hguard, hu, dtWidth]
  | Bool b =>
    cases hser
    have h0 := goodAt_get hg 0 (by simp)
    have h1 := goodAt_get hg 1 (by simp)
    simp at h0 h1
    cases b <;> simp [dtDeserialize, h0, h1, dtWidth]
  | Null =>
    cases hser
    have h0 := goodAt_get hg 0 (by simp)
    simp at h0
    simp [dtDeserialize, h0, dtWidth]

/-- `DataType::serialize` succeeds on every value within its constraints. -/
theorem dtSerialize_total {v : DataType} (hwf : wfDataType v) :
    ∃ bs, dtSerialize v = some bs := by
  cases v with
  | Varchar s =>
    have hwf' : s.length ≤ 32 := hwf
    have hlen : s.length % 256 = s.length := Nat.mod_eq_of_lt (by omega)
    exact ⟨_, by rw [dtSerialize, hlen, if_neg (by omega)]⟩
  | Int32 n => exact ⟨_, rfl⟩
  | Float64 bits => exact ⟨_, rfl⟩
  | Bool b => exact ⟨_, rfl⟩
  | Null => exact ⟨_, rfl⟩

/-- The program's `==` is reflexive on every value that is not a NaN float. -/
theorem dtEq_refl {v : DataType} (h : isNaNValue v = false) : dtEq v v = true := by
  cases v with
  | Float64 bits =>
    have h' : f64IsNaN bits = false := h
    by_cases hz : bits % 2 ^ 63 = 0 <;> simp [dtEq, f64Eq, h', hz]
  | _ => simp [dtEq]

/-- C1 (corrected).  For every value within its constraints that is not a
`Float64` NaN, deserializing the result of serializing it, starting at
offset 0, consumes the whole encoding and returns a value `==` the
original.  (For a NaN the decoded value is bit-identical but the program's
`==` still rejects it; see the counterexample.) -/
theorem C1_codec_roundtrip {v : DataType} (hwf : wfDataType v)
    (hnan : isNaNValue v = false) :
    ∃ bs r, dtSerialize v = some bs ∧ dtDeserialize bs 0 = some (r, bs.length) ∧
      dtEq r v = true := by
  obtain ⟨bs, hser⟩ := dtSerialize_total hwf
  refine ⟨bs, v, hser, ?_, dtEq_refl hnan⟩
  have h := dtDeserialize_goodAt hwf hser (goodAt_self bs)
  rw [dtSerialize_length hwf hser]
  simpa using h

/-- Witness for C1 at `Int32 42`. -/
theorem C1_codec_roundtrip_witness :
    ∃ bs r, dtSerialize (.Int32 42) = some bs ∧
      dtDeserialize bs 0 = some (r, bs.length) ∧ dtEq r (.Int32 42) = true :=
  @C1_codec_roundtrip (.Int32 42) (by decide) (by decide)

/-- C1 counterexample.  `Float64 NaN` (bit pattern `0x7FF8000000000000`) is
within its constraints, its encoding decodes to the bit-identical value,
but the program's `==` (IEEE equality on floats) rejects it, so
`decode(encode(v)) == v` fails at `v = Float64(NaN)`. -/
theorem C1_codec_roundtrip_counterexample :
    wfDataType (.Float64 0x7FF8000000000000) ∧
    dtSerialize (.Float64 0x7FF8000000000000) =
      some [0x03, 0, 0, 0, 0, 0, 0, 0xF8, 0x7F] ∧
    dtDeserialize [0x03, 0, 0, 0, 0, 0, 0, 0xF8, 0x7F] 0 =
      some (.Float64 0x7FF8000000000000, 9) ∧
    dtEq (.Float64 0x7FF8000000000000) (.Float64 0x7FF8000000000000) = false :=
  ⟨by decide, by decide, by decide, by decide⟩

/-- C8 (code bug).  On the failing input `[0x05, 0x00]` — tag byte `0x05`
is none of the recognized tags — the decoder does not fail: it silently
returns `Null` and advances the offset by 2. -/
theorem C8_unknown_tag_returns_null :
    dtDeserialize [0x05, 0x00] 0 = some (.Null, 2) := by decide

/-- C9 (confirmed).  A well-formed value encodes to exactly the fixed
width of its kind (Null 2, Varchar 34, Int32 5, Float64 9, Bool 2), and
decoding any buffer holding that encoding at position `q` returns the
value and advances the offset by exactly that width. -/
theorem C9_fixed_widths {v : DataType} {bs buf : List Nat} {q : Nat}
    (hwf : wfDataType v) (hser : dtSerialize v = some bs) (hg : goodAt buf q bs) :
    bs.length = dtWidth v ∧ dtDeserialize buf q = some (v, q + dtWidth v) :=
  ⟨dtSerialize_length hwf hser, dtDeserialize_goodAt hwf hser hg⟩

/-- Witness for C9: the encoding of `Varchar "Hi"` inside a larger buffer. -/
theorem C9_fixed_widths_witness :
    (1 :: 2 :: 72 :: 105 :: List.replicate 30 0).length =
      dtWidth (.Varchar [72, 105]) ∧
    dtDeserialize ([9, 9] ++ (1 :: 2 :: 72 :: 105 :: List.replicate 30 0) ++ [7]) 2 =
      some (.Varchar [72, 105], 2 + dtWidth (.Varchar [72, 105])) :=
  @C9_fixed_widths (.Varchar [72, 105]) _ _ _ (by decide) (by decide) (by decide)

/-- `as i32` on a `usize` length (`data.len() as i32`). -/
def wrap32 (len : Nat) : Int := ofBits32 (len % 2 ^ 32)

/-- `DataType::as_int`: panics (`none`) on every non-`Int32` value. -/
def asInt : DataType → Option Int
  | .Int32 n => some n
  | _ => none

/-- Concatenation of the encodings of the items of a list (the loop bodies
of `serialize_list` / `serialize_vecdeque`). -/
def serializeItems (ser : α → Option (List Nat)) : List α → Option (List Nat)
  | [] => some []
  | x :: xs => do
      let b ← ser x
      let rest ← serializeItems ser xs
      some (b ++ rest)

/-- `Serializable::serialize_list` / `serialize_vecdeque`: an `Int32`
length prefix followed by the encodings of the items. -/
def serializeSeq (ser : α → Option (List Nat)) (xs : List α) : Option (List Nat) := do
  let lenB ← dtSerialize (.Int32 (wrap32 xs.length))
  let items ← serializeItems ser xs
  some (lenB ++ items)

/-- The decoding loop `for _ in 0..len { result.push(...) }`. -/
def deserializeItems (de : List Nat → Nat → Option (α × Nat)) (buf : List Nat) :
    Nat → Nat → Option (List α × Nat)
  | 0, off => some ([], off)
  | k + 1, off => do
      let r ← de buf off
      let rs ← deserializeItems de buf k r.2
      some (r.1 :: rs.1, rs.2)

/-- `Serializable::deserialize_list`: decode the length prefix (`as_int`
panics on a non-`Int32`), then decode that many items; a negative `i32`
length runs the loop zero times. -/
def deserializeSeq (de : List Nat → Nat → Option (α × Nat)) (buf : List Nat)
    (off : Nat) : Option (List α × Nat) := do
  let r ← dtDeserialize buf off
  let n ← asInt r.1
  deserializeItems de buf n.toNat r.2

/-- `Serializable::deserialize_vecdeque`: identical to `deserialize_list`
except for the debug `println!` that slices `buffer[offset..offset+10]`
and therefore panics when fewer than 10 bytes remain. -/
def deserializeDeque (de : List Nat → Nat → Option (α × Nat)) (buf : List Nat)
    (off : Nat) : Option (List α × Nat) :=
  if off + 10 ≤ buf.length then deserializeSeq de buf off else none

/-- `Slot` (src/page.rs): three `DataType` fields. -/
structure Slot where
  tuple_id : DataType
  offset : DataType
  length : DataType
  deriving DecidableEq, Repr

/-- `Slot::serialize`. -/
def slotSerialize (s : Slot) : Option (List Nat) := do
  let a ← dtSerialize s.tuple_id
  let b ← dtSerialize s.offset
  let c ← dtSerialize s.length
  some (a ++ b ++ c)

/-- `Slot::deserialize`. -/
def slotDeserialize (buf : List Nat) (off : Nat) : Option (Slot × Nat) := do
  let r1 ← dtDeserialize buf off
  let r2 ← dtDeserialize buf r1.2
  let r3 ← dtDeserialize buf r2.2
  some (⟨r1.1, r2.1, r3.1⟩, r3.2)

/-- `Tuple` (src/page.rs): an id and a list of values. -/
structure Tuple where
  tuple_id : DataType
  data : List DataType
  deriving DecidableEq, Repr

/-- `Tuple::serialize`: id, then `serialize_list` of the values. -/
def tupleSerialize (t : Tuple) : Option (List Nat) := do
  let a ← dtSerialize t.tuple_id
  let b ← serializeSeq dtSerialize t.data
  some (a ++ b)

/-- `Tuple::deserialize`. -/
def tupleDeserialize (buf : List Nat) (off : Nat) : Option (Tuple × Nat) := do
  let r1 ← dtDeserialize buf off
  let r2 ← deserializeSeq dtDeserialize buf r1.2
  some (⟨r1.1, r2.1⟩, r2.2)

/-- `PageType` (src/page.rs). -/
inductive PageType where
  | Data (d : DataType)
  | Index (d : DataType)
  deriving DecidableEq, Repr

/-- `PageType::serialize`. -/
def pageTypeSerialize : PageType → Option (List Nat)
  | .Data d => dtSerialize d
  | .Index d => dtSerialize d

/-- The UTF-8 bytes of `"DATA"` and `"INDEX"`. -/
def strDATA : List Nat := [68, 65, 84, 65]

def strINDEX : List Nat := [73, 78, 68, 69, 88]

/-- `PageType::deserialize`: decode a value and match `as_string` against
`"DATA"` / `"INDEX"`; every other value (`as_string` of a non-Varchar is a
numeral, `"true"`, `"false"` or `"NULL"`, never one of the two names)
panics with "Invalid page type". -/
def pageTypeDeserialize (buf : List Nat) (off : Nat) : Option (PageType × Nat) := do
  let r ← dtDeserialize buf off
  match r.1 with
  | .Varchar s =>
      if s = strDATA then some (.Data (.Varchar s), r.2)
      else if s = strINDEX then some (.Index (.Varchar s), r.2)
      else none
  | _ => none

/-- `Header` (src/page.rs). -/
structure Header where
  page_type : PageType
  free_space : DataType
  page_number : DataType
  next_page : DataType
  last_slot : DataType
  offset : DataType
  deriving DecidableEq, Repr

/-- `MAX_PAGE_SIZE`. -/
def MAX_PAGE_SIZE : Nat := 4096

/-- `Header::new`: `free_space` defaults to `Int32(4096)`, `last_slot` to
`Int32(0)` and `offset` to `Int32(4095)`. -/
def Header.new (page_type : PageType) (page_number next_page : DataType)
    (free_space : Option DataType) : Header :=
  { page_type := page_type
    free_space := free_space.getD (.Int32 4096)
    page_number := page_number
    next_page := next_page
    last_slot := .Int32 0
    offset := .Int32 4095 }

/-- `Header::serialize`: page type, free space, page number, next page;
`last_slot` and `offset` are not written. -/
def headerSerialize (h : Header) : Option (List Nat) := do
  let a ← pageTypeSerialize h.page_type
  let b ← dtSerialize h.free_space
  let c ← dtSerialize h.page_number
  let d ← dtSerialize h.next_page
  some (a ++ b ++ c ++ d)

/-- `Header::deserialize`: reads the four serialized fields and rebuilds
the header through `Header::new`, so `last_slot` and `offset` take the
constructor defaults. -/
def headerDeserialize (buf : List Nat) (off : Nat) : Option (Header × Nat) := do
  let r1 ← pageTypeDeserialize buf off
  let r2 ← dtDeserialize buf r1.2
  let r3 ← dtDeserialize buf r2.2
  let r4 ← dtDeserialize buf r3.2
  some (Header.new r1.1 r3.1 r4.1 (some r2.1), r4.2)

/-- `Page` (src/page.rs): header, slot deque, tuple deque. -/
structure Page where
  header : Header
  slots : List Slot
  data : List Tuple
  deriving DecidableEq, Repr

/-- `Page::new`. -/
def Page.new (header : Header) (slots : Option (List Slot))
    (data : Option (List Tuple)) : Page :=
  { header := header, slots := slots.getD [], data := data.getD [] }

/-- `Page::reduce_free_space`: asserts `reduce_by <= free_space` (a failed
assert is a panic, i.e. `none`). -/
def reduceFreeSpace (p : Page) (reduce_by : Int) : Option Page := do
  let free ← asInt p.header.free_space
  if reduce_by ≤ free then
    some { p with header := { p.header with free_space := .Int32 (free - reduce_by) } }
  else none

/-- `Page::append_tuple`. -/
def appendTuple (p : Page) (tuple_data : List DataType) : Option Page := do
  let ls ← asInt p.header.last_slot
  let tuple_id := ls + 1
  let tuple : Tuple := ⟨.Int32 tuple_id, tuple_data⟩
  let tb ← tupleSerialize tuple
  let off0 ← asInt p.header.offset
  let new_offset := if ls = 0 then off0 - (tb.length : Int) - 5 else off0 - (tb.length : Int)
  let tuple_size : Int := if ls = 0 then (tb.length : Int) + 5 else (tb.length : Int)
  let slot : Slot := ⟨.Int32 tuple_id, .Int32 new_offset, .Int32 tuple_size⟩
  let sb ← slotSerialize slot
  let p1 : Page :=
    { p with header := { p.header with last_slot := .Int32 tuple_id,
                                       offset := .Int32 new_offset } }
  let p2 ← reduceFreeSpace p1 (sb.length : Int)
  let p3 : Page := { p2 with slots := p2.slots ++ [slot] }
  let p4 ← reduceFreeSpace p3 tuple_size
  some { p4 with data := tuple :: p4.data }

/-- `Vec::splice(a..a+seg.len(), seg)`: overwrite `seg.length` bytes of
`b` starting at position `a` (callers guard `a + seg.length ≤ b.length`,
which is where `splice` would panic). -/
def splice (b : List Nat) (a : Nat) (seg : List Nat) : List Nat :=
  b.take a ++ seg ++ b.drop (a + seg.length)

/-- `Page::serialize`: a zeroed 4096-byte frame, header at 0, slot deque
right after, tuple deque at `header.offset`; the `assert!` demands that
the tuples fit in the space after the slot region, and each `splice`
panics when its range leaves the frame (`none`). -/
def pageSerialize (p : Page) : Option (List Nat) := do
  let hdr ← headerSerialize p.header
  if hdr.length ≤ MAX_PAGE_SIZE then
    let slotsB ← serializeSeq slotSerialize p.slots
    if hdr.length + slotsB.length ≤ MAX_PAGE_SIZE then
      let tuplesB ← serializeSeq tupleSerialize p.data
      let toff ← asInt p.header.offset
      if tuplesB.length ≤ MAX_PAGE_SIZE - hdr.length - slotsB.length then
        if 0 ≤ toff ∧ toff.toNat + tuplesB.length ≤ MAX_PAGE_SIZE then
          some (splice (splice (splice (List.replicate MAX_PAGE_SIZE 0) 0 hdr)
            hdr.length slotsB) toff.toNat tuplesB)
        else none
      else none
    else none
  else none

/-- `Page::deserialize`: header, slot deque, then the tuple deque starting
at the offset recorded in the last slot (`back().unwrap()` panics on an
empty slot deque; an `offset` that is not an `Int32` panics in `as_int`;
a negative offset becomes a huge `usize` and the deque debug slice
panics). -/
def pageDeserialize (buf : List Nat) (off : Nat) : Option (Page × Nat) := do
  let r1 ← headerDeserialize buf off
  let r2 ← deserializeDeque slotDeserialize buf r1.2
  let lastSlot ← r2.1.getLast?
  let lto ← asInt lastSlot.offset
  if 0 ≤ lto then
    let r3 ← deserializeDeque tupleDeserialize buf lto.toNat
    some (Page.new r1.1 (some r2.1) (some r3.1), r2.2)
  else none

/-- C7 amended: a page constructed over `Header::new` with no explicit
free space has `free_space = Int32 4096` (`MAX_PAGE_SIZE`), whatever the
other header arguments are. -/
theorem C7_fresh_page_free_space (pt : PageType) (pn np : DataType) :
    (Page.new (Header.new pt pn np none) none none).header.free_space =
      .Int32 4096 := rfl

/-- C7 counterexample: for the standard header (`Varchar "DATA"`, two
`Int32` fields) the serialized header is 49 bytes, yet the fresh page's
free space is `Int32 4096`, not `Int32 (4096 - 49)`. -/
theorem C7_fresh_page_free_space_counterexample :
    (∃ hb, headerSerialize
        (Header.new (.Data (.Varchar strDATA)) (.Int32 0) (.Int32 1) none) = some hb ∧
      hb.length = 49) ∧
    (Page.new (Header.new (.Data (.Varchar strDATA)) (.Int32 0) (.Int32 1) none)
        none none).header.free_space = .Int32 4096 ∧
    (DataType.Int32 4096) ≠ .Int32 (4096 - 49) :=
  ⟨⟨_, rfl, by decide⟩, rfl, by decide⟩

theorem bind_some_elim {α β : Type _} {x : Option α} {f : α → Option β} {b : β}
    (h : x.bind f = some b) : ∃ a, x = some a ∧ f a = some b := by
  cases x with
  | none => exact Option.noConfusion h
  | some a => exact ⟨a, rfl, h⟩

theorem headerDeserialize_defaults {buf : List Nat} {off : Nat} {r : Header × Nat}
    (h : headerDeserialize buf off = some r) :
    r.1.last_slot = .Int32 0 ∧ r.1.offset = .Int32 4095 := by
  unfold headerDeserialize at h
  obtain ⟨r1, h1, h⟩ := bind_some_elim h
  obtain ⟨r2, h2, h⟩ := bind_some_elim h
  obtain ⟨r3, h3, h⟩ := bind_some_elim h
  obtain ⟨r4, h4, h⟩ := bind_some_elim h
  simp only [Option.some.injEq] at h
  subst h
  exact ⟨rfl, rfl⟩

/-- C10 (confirmed): every page accepted by `Page::deserialize` comes back
with the constructor defaults `last_slot = Int32 0` and
`offset = Int32 4095`, regardless of the slot directory in the buffer. -/
theorem C10_deserialize_header_defaults {buf : List Nat} {off : Nat} {p : Page} {o : Nat}
    (h : pageDeserialize buf off = some (p, o)) :
    p.header.last_slot = .Int32 0 ∧ p.header.offset = .Int32 4095 := by
  unfold pageDeserialize at h
  obtain ⟨r1, h1, h⟩ := bind_some_elim h
  obtain ⟨r2, h2, h⟩ := bind_some_elim h
  obtain ⟨lastSlot, h3, h⟩ := bind_some_elim h
  obtain ⟨lto, h4, h⟩ := bind_some_elim h
  split at h
  · obtain ⟨r3, h5, h⟩ := bind_some_elim h
    simp only [Option.some.injEq, Prod.mk.injEq] at h
    rw [← h.1]
    exact headerDeserialize_defaults h1
  · exact Option.noConfusion h

/-- A concrete 88-byte buffer accepted by `Page::deserialize`: a `"DATA"`
header, one slot pointing at offset 73, and a one-tuple deque there. -/
def c10buf : List Nat :=
  [1, 4, 68, 65, 84, 65] ++ List.replicate 28 0 ++
  [2, 0, 16, 0, 0] ++ [2, 0, 0, 0, 0] ++ [2, 1, 0, 0, 0] ++
  [2, 1, 0, 0, 0] ++ [2, 1, 0, 0, 0, 2, 73, 0, 0, 0, 2, 10, 0, 0, 0] ++
  [0, 0, 0, 0] ++
  [2, 1, 0, 0, 0] ++ [2, 1, 0, 0, 0] ++ [2, 0, 0, 0, 0]

/-- Witness for C10 on `c10buf`. -/
theorem C10_deserialize_header_defaults_witness :
    ∃ p o, pageDeserialize c10buf 0 = some (p, o) ∧
      p.header.last_slot = .Int32 0 ∧ p.header.offset = .Int32 4095 := by
  have h : ∃ p o, pageDeserialize c10buf 0 = some (p, o) := ⟨_, _, rfl⟩
  obtain ⟨p, o, h⟩ := h
  exact ⟨p, o, h, (C10_deserialize_header_defaults h).1,
    (C10_deserialize_header_defaults h).2⟩

theorem slotSerialize_int32_length (a b c : Int) :
    ∃ sb, slotSerialize ⟨.Int32 a, .Int32 b, .Int32 c⟩ = some sb ∧ sb.length = 15 := by
  refine ⟨_, rfl, ?_⟩
  simp [natLeBytes_length]

/-- C6 (confirmed).  On a page whose header fields are `Int32`s, with `S`
the serialized tuple size (the 5-byte first-append reservation folded in),
a successful `append_tuple` assigns `tuple_id = last_slot + 1`, sets the
heap offset to the previous offset minus `S`, appends the slot
`(tuple_id, offset, S)`, prepends the tuple, and decreases `free_space`
by exactly `size(slot) + S = 15 + S`; the append fails exactly when
`15 + S` exceeds the free space. -/
theorem appendTuple_spec {p : Page} {d : List DataType} {ls off0 fr S : Int}
    {tb : List Nat}
    (hls : p.header.last_slot = .Int32 ls)
    (hoff : p.header.offset = .Int32 off0)
    (hfr : p.header.free_space = .Int32 fr)
    (htb : tupleSerialize ⟨.Int32 (ls + 1), d⟩ = some tb)
    (hS : S = if ls = 0 then (tb.length : Int) + 5 else (tb.length : Int)) :
    (15 + S ≤ fr →
      appendTuple p d = some { p with
                                header := { p.header with
                                             last_slot := .Int32 (ls + 1),
                                             offset := .Int32 (off0 - S),
                                             free_space := .Int32 (fr - 15 - S) },
                                slots := p.slots ++
                                  [⟨.Int32 (ls + 1), .Int32 (off0 - S), .Int32 S⟩],
                                data := ⟨.Int32 (ls + 1), d⟩ :: p.data }) ∧
    (fr < 15 + S → appendTuple p d = none) := by
  obtain ⟨⟨pt, fs, pn, np, lsf, offf⟩, slots, data⟩ := p
  simp only at hls hoff hfr
  subst hls hoff hfr
  have htbn : (0 : Int) ≤ (tb.length : Int) := Int.ofNat_nonneg _
  by_cases hls0 : ls = 0
  · have hS' : S = (tb.length : Int) + 5 := by simpa [hls0] using hS
    subst hS'
    subst hls0
    have htb' : tupleSerialize ⟨.Int32 1, d⟩ = some tb := by simpa using htb
    constructor
    · intro hle
      have hc1 : (15 : Int) ≤ fr := by omega
      have hc2 : (tb.length : Int) + 5 ≤ fr - 15 := by omega
      simp [appendTuple, slotSerialize, reduceFreeSpace, asInt, htb', dtSerialize,
        natLeBytes_length, hc1, hc2]
      omega
    · intro hlt
      by_cases h15 : (15 : Int) ≤ fr
      · have hneg : ¬((tb.length : Int) + 5 ≤ fr - 15) := by omega
        simp [appendTuple, slotSerialize, reduceFreeSpace, asInt, htb', dtSerialize,
          natLeBytes_length, h15, hneg]
      · simp [appendTuple, slotSerialize, reduceFreeSpace, asInt, htb', dtSerialize,
          natLeBytes_length, h15]
  · have hS' : S = (tb.length : Int) := by simpa [hls0] using hS
    subst hS'
    constructor
    · intro hle
      have hc1 : (15 : Int) ≤ fr := by omega
      have hc2 : (tb.length : Int) ≤ fr - 15 := by omega
      simp [appendTuple, slotSerialize, reduceFreeSpace, asInt, htb, dtSerialize,
        natLeBytes_length, hls0, hc1, hc2]
    · intro hlt
      by_cases h15 : (15 : Int) ≤ fr
      · have hneg : ¬((tb.length : Int) ≤ fr - 15) := by omega
        simp [appendTuple, slotSerialize, reduceFreeSpace, asInt, htb, dtSerialize,
          natLeBytes_length, hls0, h15, hneg]
      · simp [appendTuple, slotSerialize, reduceFreeSpace, asInt, htb, dtSerialize,
          natLeBytes_length, hls0, h15]

/-- `HashMap::contains_key`, keys compared with the program's `==`. -/
def mapContainsKey (m : List (DataType × DataType)) (k : DataType) : Bool :=
  m.any (fun e => dtEq e.1 k)

/-- `HashMap::insert`: overwrite the value under an existing key, else add
the binding (iteration order of the hash map is irrelevant to the claims,
so the map is carried as its list of bindings). -/
def mapInsert (m : List (DataType × DataType)) (k v : DataType) :
    List (DataType × DataType) :=
  if mapContainsKey m k then m.map (fun e => if dtEq e.1 k then (e.1, v) else e)
  else m ++ [(k, v)]

/-- `HashMap::remove`. -/
def mapRemove (m : List (DataType × DataType)) (k : DataType) :
    List (DataType × DataType) :=
  m.filter (fun e => !(dtEq e.1 k))

/-- The UTF-8 bytes of `"data/directory.db"`. -/
def defaultDirFile : List Nat :=
  [100, 97, 116, 97, 47, 100, 105, 114, 101, 99, 116, 111, 114, 121, 46, 100, 98]

/-- `Directory` (src/directory.rs): `pages : PageId → path`,
`objects : ObjectId → PageId`, plus the bound file path. -/
structure Directory where
  pages : List (DataType × DataType)
  objects : List (DataType × DataType)
  file : List Nat
  deriving DecidableEq, Repr

/-- `Directory::new`. -/
def Directory.new (pages objects : Option (List (DataType × DataType))) : Directory :=
  { pages := pages.getD [], objects := objects.getD [], file := defaultDirFile }

/-- `Directory::add_page`: insert or overwrite. -/
def addPage (d : Directory) (page_id path : DataType) : Directory :=
  { d with pages := mapInsert d.pages page_id path }

/-- `Directory::add_object`: `assert!(pages.contains_key(&page_id))`,
then insert (`none` is the panic of a failed assert). -/
def addObject (d : Directory) (object_id page_id : DataType) : Option Directory :=
  if mapContainsKey d.pages page_id then
    some { d with objects := mapInsert d.objects object_id page_id }
  else none

/-- `Directory::remove_object`. -/
def removeObject (d : Directory) (object_id : DataType) : Directory :=
  { d with objects := mapRemove d.objects object_id }

/-- `Directory::remove_page`: removes from `pages` only — no cascade into
`objects`. -/
def removePage (d : Directory) (page_id : DataType) : Directory :=
  { d with pages := mapRemove d.pages page_id }

/-- One public mutating operation of the directory. -/
inductive DirOp where
  | add_page (page_id path : DataType)
  | add_object (object_id page_id : DataType)
  | remove_object (object_id : DataType)
  | remove_page (page_id : DataType)
  deriving DecidableEq, Repr

def dirStep (d : Directory) : DirOp → Option Directory
  | .add_page pid path => some (addPage d pid path)
  | .add_object oid pid => addObject d oid pid
  | .remove_object oid => some (removeObject d oid)
  | .remove_page pid => some (removePage d pid)

def dirRun (d : Directory) : List DirOp → Option Directory
  | [] => some d
  | op :: ops => (dirStep d op).bind (fun d' => dirRun d' ops)

/-- The referential invariant of the claim: every `PageId` appearing as a
value of `objects` is a key of `pages`. -/
def dirInv (d : Directory) : Prop :=
  ∀ e ∈ d.objects, mapContainsKey d.pages e.2 = true

instance (d : Directory) : Decidable (dirInv d) := by
  unfold dirInv; infer_instance

def isRemovePage : DirOp → Bool
  | .remove_page _ => true
  | _ => false

theorem mapInsert_containsKey {m : List (DataType × DataType)} {k' : DataType}
    (k v : DataType) (h : mapContainsKey m k' = true) :
    mapContainsKey (mapInsert m k v) k' = true := by
  unfold mapInsert
  split
  · unfold mapContainsKey at h ⊢
    rw [List.any_map]
    convert h using 2
    funext e
    by_cases he : dtEq e.1 k = true <;> simp [he, Function.comp]
  · unfold mapContainsKey at h ⊢
    simp only [List.any_append, h, Bool.true_or]

theorem mapInsert_mem {m : List (DataType × DataType)} {k v : DataType}
    {e : DataType × DataType} (h : e ∈ mapInsert m k v) : e ∈ m ∨ e.2 = v := by
  unfold mapInsert at h
  split at h
  · obtain ⟨a, ha, hfa⟩ := List.mem_map.mp h
    by_cases hk : dtEq a.1 k = true
    · right; rw [← hfa]; simp [hk]
    · left; rw [← hfa]; simp [hk]; exact ha
  · rcases List.mem_append.mp h with h1 | h1
    · exact Or.inl h1
    · right; simp at h1; rw [h1]

theorem dirStep_inv {d d' : Directory} {op : DirOp} (hop : isRemovePage op = false)
    (hinv : dirInv d) (h : dirStep d op = some d') : dirInv d' := by
  cases op with
  | add_page pid path =>
    simp only [dirStep, Option.some.injEq] at h
    subst h
    intro e he
    exact mapInsert_containsKey pid path (hinv e he)
  | add_object oid pid =>
    simp only [dirStep, addObject] at h
    split at h
    · simp only [Option.some.injEq] at h
      subst h
      intro e he
      rcases mapInsert_mem he with h1 | h1
      · exact hinv e h1
      · rw [h1]; assumption
    · exact Option.noConfusion h
  | remove_object oid =>
    simp only [dirStep, Option.some.injEq] at h
    subst h
    intro e he
    exact hinv e (List.mem_of_mem_filter he)
  | remove_page pid => simp [isRemovePage] at hop

/-- C5 amended: along any sequence of `add_page`, `add_object`,
`remove_object` (no `remove_page`) in which every `add_object` precondition
holds, the referential invariant is preserved. -/
theorem C5_directory_invariant {ops : List DirOp} {d d' : Directory}
    (hops : ∀ op ∈ ops, isRemovePage op = false)
    (hinv : dirInv d) (h : dirRun d ops = some d') : dirInv d' := by
  induction ops generalizing d with
  | nil => simp only [dirRun, Option.some.injEq] at h; subst h; exact hinv
  | cons op ops ih =>
    unfold dirRun at h
    obtain ⟨d1, h1, h2⟩ := bind_some_elim h
    exact ih (fun o ho => hops o (List.mem_cons_of_mem _ ho))
      (dirStep_inv (hops op (List.mem_cons_self _ _)) hinv h1) h2

/-- Witness for C5: add a page, bind an object to it, remove the object. -/
theorem C5_directory_invariant_witness :
    ∃ d', dirRun (Directory.new none none)
        [.add_page (.Int32 1) (.Int32 42), .add_object (.Int32 7) (.Int32 1),
         .remove_object (.Int32 7)] = some d' ∧ dirInv d' := by
  have h : ∃ d', dirRun (Directory.new none none)
      [.add_page (.Int32 1) (.Int32 42), .add_object (.Int32 7) (.Int32 1),
       .remove_object (.Int32 7)] = some d' := ⟨_, rfl⟩
  obtain ⟨d', h⟩ := h
  exact ⟨d', h, C5_directory_invariant (by decide) (by decide) h⟩

/-- C5 counterexample: `remove_page` does not cascade, so after
`add_page 1`, `add_object 7 1`, `remove_page 1` the object map still maps
object 7 to page 1 while `pages` is empty: the invariant fails. -/
theorem C5_directory_invariant_counterexample :
    dirRun (Directory.new none none)
        [.add_page (.Int32 1) (.Int32 42), .add_object (.Int32 7) (.Int32 1),
         .remove_page (.Int32 1)] =
      some ⟨[], [(.Int32 7, .Int32 1)], defaultDirFile⟩ ∧
    ¬ dirInv ⟨[], [(.Int32 7, .Int32 1)], defaultDirFile⟩ :=
  ⟨by decide, by decide⟩

mutual
/-- `BTreeNode` (src/main.rs): entries `(i32 key, value)`, owned children,
`is_leaf`, `is_root`.  The child vector is a dedicated list type so that
recursive functions stay structurally well-founded. -/
inductive BTreeNode (α : Type) where
  | mk (entries : List (Int × α)) (children : NodeList α)
       (is_leaf : Bool) (is_root : Bool)
  deriving DecidableEq, Repr

inductive NodeList (α : Type) where
  | nil
  | cons (hd : BTreeNode α) (tl : NodeList α)
  deriving DecidableEq, Repr
end

namespace NodeList

def lengthN : NodeList α → Nat
  | .nil => 0
  | .cons _ tl => lengthN tl + 1

/-- `children[i]` (read). -/
def getN : NodeList α → Nat → Option (BTreeNode α)
  | .nil, _ => none
  | .cons hd _, 0 => some hd
  | .cons _ tl, i + 1 => getN tl i

/-- `children[i] = c` (write; callers index in range). -/
def setN : NodeList α → Nat → BTreeNode α → NodeList α
  | .nil, _, _ => .nil
  | .cons _ tl, 0, c => .cons c tl
  | .cons hd tl, i + 1, c => .cons hd (setN tl i c)

/-- `Vec::insert(i, c)`: `none` when `i` exceeds the length (a panic). -/
def insertAtN : NodeList α → Nat → BTreeNode α → Option (NodeList α)
  | cs, 0, c => some (.cons c cs)
  | .nil, _ + 1, _ => none
  | .cons hd tl, i + 1, c => (insertAtN tl i c).map (.cons hd)

/-- The tail that `Vec::split_off(i)` returns (callers guard `i ≤ len`). -/
def dropN : NodeList α → Nat → NodeList α
  | cs, 0 => cs
  | .nil, _ + 1 => .nil
  | .cons _ tl, i + 1 => dropN tl i

def toList : NodeList α → List (BTreeNode α)
  | .nil => []
  | .cons hd tl => hd :: toList tl

end NodeList

namespace BTreeNode

def entries : BTreeNode α → List (Int × α)
  | .mk e _ _ _ => e

def children : BTreeNode α → NodeList α
  | .mk _ c _ _ => c

def is_leaf : BTreeNode α → Bool
  | .mk _ _ l _ => l

def is_root : BTreeNode α → Bool
  | .mk _ _ _ r => r

end BTreeNode

mutual
/-- Height of a node: one more than the height of its child forest. -/
def BTreeNode.height : BTreeNode α → Nat
  | .mk _ cs _ _ => NodeList.heightL cs + 1

def NodeList.heightL : NodeList α → Nat
  | .nil => 0
  | .cons c cs => max c.height (NodeList.heightL cs)
end

theorem NodeList.getN_height : ∀ (cs : NodeList α) (i : Nat) (c : BTreeNode α),
    cs.getN i = some c → c.height ≤ cs.heightL
  | .nil, _, _, h => Option.noConfusion h
  | .cons hd tl, 0, c, h => by
      simp only [NodeList.getN, Option.some.injEq] at h
      subst h
      exact le_max_left _ _
  | .cons hd tl, i + 1, c, h => by
      simp only [NodeList.getN] at h
      exact le_trans (NodeList.getN_height tl i c h) (le_max_right _ _)

theorem NodeList.dropN_height : ∀ (cs : NodeList α) (i : Nat),
    (cs.dropN i).heightL ≤ cs.heightL
  | .nil, 0 => le_refl _
  | .nil, _ + 1 => le_refl _
  | .cons _ _, 0 => le_refl _
  | .cons hd tl, i + 1 => by
      simp only [NodeList.dropN, NodeList.heightL]
      exact le_trans (NodeList.dropN_height tl i) (le_max_right _ _)

theorem NodeList.insertAtN_height : ∀ (cs : NodeList α) (i : Nat) (c : BTreeNode α)
    (cs' : NodeList α), cs.insertAtN i c = some cs' →
    cs'.heightL = max c.height cs.heightL
  | cs, 0, c, cs', h => by
      cases cs <;>
        (simp only [NodeList.insertAtN, Option.some.injEq] at h; subst h;
         simp [NodeList.heightL])
  | .nil, _ + 1, _, _, h => Option.noConfusion h
  | .cons hd tl, i + 1, c, cs', h => by
      simp only [NodeList.insertAtN, Option.map_eq_some'] at h
      obtain ⟨tl', h1, h2⟩ := h
      subst h2
      simp only [NodeList.heightL, NodeList.insertAtN_height tl i c tl' h1]
      omega

/-- The scan loop `while i < len && key > entries[i].key { i += 1 }`:
the first index whose key is not below `key` (or the length). -/
def lowerIdx (key : Int) : List (Int × α) → Nat
  | [] => 0
  | e :: es => if key > e.1 then lowerIdx key es + 1 else 0

theorem lowerIdx_le_length (key : Int) : ∀ (es : List (Int × α)),
    lowerIdx key es ≤ es.length
  | [] => le_refl _
  | e :: es => by
      simp only [lowerIdx]
      split
      · simpa using lowerIdx_le_length key es
      · simp

/-- `Vec::insert(i, x)` on an entry vector (`none` = out-of-range panic). -/
def insertIdxOpt (i : Nat) (x : β) (l : List β) : Option (List β) :=
  if i ≤ l.length then some (l.take i ++ x :: l.drop i) else none

/-- `BTree::search` (src/main.rs): scan for the first entry not below
`key`; return it on equality; report absence at a leaf; otherwise recurse
into `children[i]`.  The outer `Option` is the panic of an out-of-range
child access, the inner one the search result. -/
def search (u : BTreeNode α) (key : Int) : Option (Option (Int × α)) :=
  match u with
  | .mk es children leaf _ =>
    match hi : es.get? (lowerIdx key es) with
    | some e =>
      if key = e.1 then some (some e)
      else if leaf then some none
      else
        match hc : children.getN (lowerIdx key es) with
        | some c => search c key
        | none => none
    | none =>
      if leaf then some none
      else
        match hc : children.getN (lowerIdx key es) with
        | some c => search c key
        | none => none
termination_by u.height
decreasing_by
  · simp only [BTreeNode.height]
    exact Nat.lt_succ_of_le (NodeList.getN_height _ _ _ hc)
  · simp only [BTreeNode.height]
    exact Nat.lt_succ_of_le (NodeList.getN_height _ _ _ hc)

/-- `BTree::split_child(u, i)` (src/main.rs).  The source clones
`children[i]` into `z`, builds the right sibling from `z.entries[t..]`
(and `z.children.split_off(t)` when `z` is not a leaf), inserts the
sibling at `children[i+1]` and the median `z.entries[t-1]` at
`entries[i]` — and then truncates only the clone `z`, which is dropped,
so the original `children[i]` is never shortened.  `none` marks the
source's panics: child index out of range, slice `[t..]` or `split_off`
past the entry/child count, `t as usize - 1` underflow at `t = 0`,
`entries.insert` past the entry count. -/
def splitChild (t : Nat) (u : BTreeNode α) (i : Nat) : Option (BTreeNode α) :=
  match u with
  | .mk es children leaf root =>
    match children.getN i with
    | none => none
    | some z =>
      if t ≤ z.entries.length then
        if z.is_leaf ∨ t ≤ z.children.lengthN then
          let newNode : BTreeNode α :=
            .mk (z.entries.drop t)
              (if z.is_leaf then .nil else z.children.dropN t) z.is_leaf false
          match children.insertAtN (i + 1) newNode with
          | none => none
          | some children' =>
            if 1 ≤ t then
              match z.entries.get? (t - 1) with
              | none => none
              | some med =>
                match insertIdxOpt i med es with
                | none => none
                | some es' => some (.mk es' children' leaf root)
            else none
          else none
      else none

theorem splitChild_heightL {t : Nat} {u u' : BTreeNode α} {i : Nat}
    (h : splitChild t u i = some u') :
    u'.children.heightL ≤ u.children.heightL := by
  match u with
  | .mk es cs leaf root =>
    simp only [splitChild] at h
    split at h
    next => exact Option.noConfusion h
    next z hz =>
      split at h
      case isTrue ht =>
        split at h
        case isTrue hor =>
          split at h
          next => exact Option.noConfusion h
          next children' hins =>
            split at h
            case isTrue h1t =>
              split at h
              next => exact Option.noConfusion h
              next med hmed =>
                split at h
                next => exact Option.noConfusion h
                next es' hes =>
                  simp only [Option.some.injEq] at h
                  subst h
                  have hzh := NodeList.getN_height _ _ _ hz
                  have hh := NodeList.insertAtN_height _ _ _ _ hins
                  have hnew : (BTreeNode.mk (z.entries.drop t)
                      (if z.is_leaf then .nil else z.children.dropN t) z.is_leaf
                        false).height ≤ cs.heightL := by
                    refine le_trans ?_ hzh
                    match z with
                    | .mk ze zc zl zr =>
                      simp only [BTreeNode.height, BTreeNode.is_leaf,
                        BTreeNode.children]
                      cases zl with
                      | true => simp [NodeList.heightL]
                      | false =>
                        simp only [Bool.false_eq_true, if_false]
                        have := NodeList.dropN_height zc t
                        omega
                  simp only [BTreeNode.children]
                  omega
            case isFalse => exact Option.noConfusion h
        case isFalse => exact Option.noConfusion h
      case isFalse => exact Option.noConfusion h

/-- `BTree::insert_non_full` (src/main.rs).  On a leaf, insert in sorted
position.  On an internal node, only when the located child is full:
split it, re-pick the child against the promoted median, and recurse;
when the located child is not full the function falls through and the
node is returned unchanged (the source has no else branch). -/
def insertNonFull (t : Nat) (u : BTreeNode α) (key : Int) (value : α) :
    Option (BTreeNode α) :=
  match u with
  | .mk es children leaf root =>
    if leaf then
      (insertIdxOpt (lowerIdx key es) (key, value) es).map
        (fun es' => .mk es' children leaf root)
    else
      match children.getN (lowerIdx key es) with
      | none => none
      | some c =>
        if c.entries.length = 2 * t - 1 then
          match hs : splitChild t (.mk es children leaf root) (lowerIdx key es) with
          | none => none
          | some u' =>
            match u'.entries.get? (lowerIdx key es) with
            | none => none
            | some e =>
              match hc : u'.children.getN
                  (if key > e.1 then lowerIdx key es + 1 else lowerIdx key es) with
              | none => none
              | some c' =>
                (insertNonFull t c' key value).map (fun c'' =>
                  .mk u'.entries
                    (u'.children.setN
                      (if key > e.1 then lowerIdx key es + 1 else lowerIdx key es) c'')
                    u'.is_leaf u'.is_root)
        else some (.mk es children leaf root)
termination_by u.height
decreasing_by
  simp only [BTreeNode.height]
  have h1 := NodeList.getN_height _ _ _ hc
  have h2 := splitChild_heightL hs
  unfold BTreeNode.children at h1 h2
  exact Nat.lt_succ_of_le (le_trans h1 h2)

/-- A full leaf child (3 = 2t-1 entries for t = 2) under a root. -/
def c4child : BTreeNode Nat := .mk [(1, 10), (2, 20), (3, 30)] .nil true false

def c4node : BTreeNode Nat := .mk [] (.cons c4child .nil) false true

/-- C3 failing input: a non-full non-leaf root whose located child is not
full. -/
def c3root : BTreeNode Nat :=
  .mk [(5, 50)]
    (.cons (.mk [(1, 10)] .nil true false)
      (.cons (.mk [(10, 100)] .nil true false) .nil)) false true

/-- C4 (code bug).  With `t = 2` and a child holding exactly `2t-1 = 3`
entries, `split_child` promotes the median and installs the right sibling
correctly, but `children[0]` still holds all three entries afterwards —
the truncation happens on the dropped clone `z`, so the child is never
cut to the first `t-1 = 1` entries. -/
theorem C4_split_child_left_not_truncated :
    splitChild 2 c4node 0 =
      some (.mk [(2, 20)]
        (.cons c4child (.cons (.mk [(3, 30)] .nil true false) .nil)) false true) ∧
    (splitChild 2 c4node 0).bind (fun u' => u'.children.getN 0) = some c4child ∧
    c4child.entries.length = 3 ∧ (2 - 1 : Nat) ≠ 3 := by
  refine ⟨by decide, by decide, by decide, by decide⟩

/-- C3 (code bug).  On the non-leaf root `c3root` whose located child for
key 2 is not full, `insert_non_full` returns the tree unchanged (the
source only recurses when the child is full), so the inserted key is not
found afterwards: `search` reports absence. -/
theorem C3_insert_non_full_drops_key :
    insertNonFull 2 c3root 2 999 = some c3root ∧ search c3root 2 = some none := by
  constructor
  · simp [insertNonFull, c3root, lowerIdx, NodeList.getN, BTreeNode.entries]
  · simp [search, c3root, lowerIdx, NodeList.getN, BTreeNode.entries]

/-- Reduction of a `do`-bind whose scrutinee is `some` (the `do` blocks
elaborate to a matcher that `simp` does not reduce on its own). -/
theorem optBind_some (a : α) (f : α → Option β) :
    (do let x ← some a; f x : Option β) = f a := rfl

/-- The decoding loop consumes the items `xs` from position `q` to `q'`. -/
def chainDecodes (de : List Nat → Nat → Option (β × Nat)) (buf : List Nat) :
    Nat → List β → Nat → Prop
  | q, [], q' => q = q'
  | q, x :: xs, q' => ∃ q1, de buf q = some (x, q1) ∧ chainDecodes de buf q1 xs q'

theorem deserializeItems_of_chain {de : List Nat → Nat → Option (β × Nat)}
    {buf : List Nat} : ∀ {xs : List β} {q q' : Nat},
    chainDecodes de buf q xs q' → deserializeItems de buf xs.length q = some (xs, q')
  | [], q, q', h => by
      simp only [chainDecodes] at h
      subst h
      rfl
  | x :: xs, q, q', h => by
      obtain ⟨q1, h1, h2⟩ := h
      have hrec := deserializeItems_of_chain h2
      simp only [List.length_cons, deserializeItems, h1, optBind_some, hrec]

theorem chainDecodes_append {de : List Nat → Nat → Option (β × Nat)}
    {buf : List Nat} : ∀ {xs ys : List β} {q q1 q' : Nat},
    chainDecodes de buf q xs q1 → chainDecodes de buf q1 ys q' →
    chainDecodes de buf q (xs ++ ys) q'
  | [], ys, q, q1, q', h1, h2 => by
      simp only [chainDecodes] at h1
      subst h1
      simpa using h2
  | x :: xs, ys, q, q1, q', h1, h2 => by
      obtain ⟨qm, hm, hrest⟩ := h1
      exact ⟨qm, hm, chainDecodes_append hrest h2⟩

/-- Items whose encodings stand consecutively in the buffer decode back to
themselves, provided each item satisfies the window property `hwin`. -/
theorem chainDecodes_of_windows {ser : β → Option (List Nat)}
    {de : List Nat → Nat → Option (β × Nat)} {P : β → Prop} {buf : List Nat}
    (hwin : ∀ x bs q, P x → ser x = some bs → goodAt buf q bs →
      de buf q = some (x, q + bs.length)) :
    ∀ (xs : List β) (q : Nat) (bs : List Nat), (∀ x ∈ xs, P x) →
      serializeItems ser xs = some bs → goodAt buf q bs →
      chainDecodes de buf q xs (q + bs.length)
  | [], q, bs, _, hser, hg => by
      simp only [serializeItems, Option.some.injEq] at hser
      subst hser
      simp [chainDecodes]
  | x :: xs, q, bs, hP, hser, hg => by
      simp only [serializeItems] at hser
      obtain ⟨bx, h1, hser⟩ := bind_some_elim hser
      obtain ⟨brest, h2, hser⟩ := bind_some_elim hser
      simp only [Option.some.injEq] at hser
      subst hser
      obtain ⟨hga, hgb⟩ := goodAt_append hg
      refine ⟨q + bx.length, hwin x bx q (hP x (List.mem_cons_self _ _)) h1 hga, ?_⟩
      have := chainDecodes_of_windows hwin xs (q + bx.length) brest
        (fun y hy => hP y (List.mem_cons_of_mem _ hy)) h2 hgb
      simpa [List.length_append, Nat.add_assoc] using this

theorem wrap32_small {n : Nat} (h : n < 2 ^ 31) : wrap32 n = (n : Int) := by
  unfold wrap32 ofBits32
  rw [Nat.mod_eq_of_lt (by omega)]
  rw [if_pos (by exact_mod_cast h)]

/-- Decoding a sequence (`deserialize_list`) whose encoding stands at
position `q`. -/
theorem deserializeSeq_goodAt {ser : β → Option (List Nat)}
    {de : List Nat → Nat → Option (β × Nat)} {P : β → Prop} {buf : List Nat}
    (hwin : ∀ x bs q, P x → ser x = some bs → goodAt buf q bs →
      de buf q = some (x, q + bs.length))
    {xs : List β} {q : Nat} {bs : List Nat} (hP : ∀ x ∈ xs, P x)
    (hser : serializeSeq ser xs = some bs) (hg : goodAt buf q bs)
    (hlen : xs.length < 2 ^ 31) :
    deserializeSeq de buf q = some (xs, q + bs.length) := by
  unfold serializeSeq at hser
  obtain ⟨lenB, h1, hser⟩ := bind_some_elim hser
  obtain ⟨items, h2, hser⟩ := bind_some_elim hser
  simp only [Option.some.injEq] at hser
  subst hser
  obtain ⟨hga, hgb⟩ := goodAt_append hg
  have hwr : wrap32 xs.length = (xs.length : Int) := wrap32_small hlen
  have hwf : wfDataType (.Int32 (wrap32 xs.length)) := by
    rw [hwr]
    constructor
    · have : (0 : Int) ≤ (xs.length : Int) := Int.ofNat_nonneg _
      omega
    · exact_mod_cast hlen
  have hlenB := dtDeserialize_goodAt hwf h1 hga
  have hlb : lenB.length = 5 := dtSerialize_length hwf h1
  have hchain := chainDecodes_of_windows hwin xs (q + lenB.length)
    items hP h2 hgb
  unfold deserializeSeq
  rw [hlenB, optBind_some]
  simp only [asInt, hwr, optBind_some, Int.toNat_natCast, dtWidth]
  rw [hlb] at hchain
  rw [deserializeItems_of_chain hchain]
  simp only [Option.some.injEq, Prod.mk.injEq, List.length_append, hlb]
  exact ⟨trivial, by omega⟩

/-- The scalar window property in the exact shape `deserializeSeq_goodAt`
expects. -/
theorem dt_window {buf : List Nat} : ∀ (x : DataType) (bs : List Nat) (q : Nat),
    wfDataType x → dtSerialize x = some bs → goodAt buf q bs →
    dtDeserialize buf q = some (x, q + bs.length) := by
  intro x bs q hx hs hg
  rw [dtSerialize_length hx hs]
  exact dtDeserialize_goodAt hx hs hg

/-- Well-formedness of a tuple: a well-formed id and well-formed values,
with an `i32`-representable arity. -/
def wfTuple (tp : Tuple) : Prop :=
  wfDataType tp.tuple_id ∧ (∀ v ∈ tp.data, wfDataType v) ∧ tp.data.length < 2 ^ 31

/-- A well-formed tuple whose encoding stands at position `q` decodes back
to itself. -/
theorem tuple_window {buf : List Nat} : ∀ (tp : Tuple) (tb : List Nat) (q : Nat),
    wfTuple tp → tupleSerialize tp = some tb → goodAt buf q tb →
    tupleDeserialize buf q = some (tp, q + tb.length) := by
  intro tp tb q hwf hser hg
  unfold tupleSerialize at hser
  obtain ⟨a, h1, hser⟩ := bind_some_elim hser
  obtain ⟨b, h2, hser⟩ := bind_some_elim hser
  simp only [Option.some.injEq] at hser
  subst hser
  obtain ⟨hga, hgb⟩ := goodAt_append hg
  have hid := dt_window tp.tuple_id a q hwf.1 h1 hga
  have hdata := deserializeSeq_goodAt dt_window hwf.2.1 h2 hgb hwf.2.2
  unfold tupleDeserialize
  rw [hid, optBind_some, hdata, optBind_some]
  simp [List.length_append, Nat.add_assoc]

/-- Decoding the tuple deque (`deserialize_vecdeque`) whose encoding
stands at position `q`; the extra hypothesis is the debug slice
`buffer[offset..offset+10]`. -/
theorem tupleDeque_goodAt {xs : List Tuple} {q : Nat} {bs buf : List Nat}
    (hP : ∀ x ∈ xs, wfTuple x) (hser : serializeSeq tupleSerialize xs = some bs)
    (hg : goodAt buf q bs) (hlen : xs.length < 2 ^ 31)
    (h10 : q + 10 ≤ buf.length) :
    deserializeDeque tupleDeserialize buf q = some (xs, q + bs.length) := by
  unfold deserializeDeque
  rw [if_pos h10]
  exact deserializeSeq_goodAt tuple_window hP hser hg hlen

/-- An all-`Int32` slot with in-range fields (the shape `append_tuple`
produces). -/
def slotP (σ : Slot) : Prop :=
  ∃ a b c : Int, σ = ⟨.Int32 a, .Int32 b, .Int32 c⟩ ∧
    wfDataType (.Int32 a) ∧ wfDataType (.Int32 b) ∧ wfDataType (.Int32 c)

theorem slotSerialize_length_of_P {σ : Slot} {sb : List Nat} (hP : slotP σ)
    (h : slotSerialize σ = some sb) : sb.length = 15 := by
  obtain ⟨a, b, c, rfl, -, -, -⟩ := hP
  unfold slotSerialize at h
  simp only [dtSerialize, optBind_some, Option.some.injEq] at h
  subst h
  simp [natLeBytes_length]

/-- A well-formed slot whose full encoding stands at `q` decodes to
itself. -/
theorem slot_window {buf : List Nat} : ∀ (σ : Slot) (sb : List Nat) (q : Nat),
    slotP σ → slotSerialize σ = some sb → goodAt buf q sb →
    slotDeserialize buf q = some (σ, q + sb.length) := by
  intro σ sb q hP hser hg
  obtain ⟨a, b, c, rfl, hwa, hwb, hwc⟩ := hP
  unfold slotSerialize at hser
  obtain ⟨A, h1, hser⟩ := bind_some_elim hser
  obtain ⟨B, h2, hser⟩ := bind_some_elim hser
  obtain ⟨C, h3, hser⟩ := bind_some_elim hser
  simp only [Option.some.injEq] at hser
  subst hser
  obtain ⟨hgab, hgc⟩ := goodAt_append hg
  obtain ⟨hga, hgb⟩ := goodAt_append hgab
  have hda := dt_window _ A q hwa h1 hga
  have hdb := dt_window _ B (q + A.length) hwb h2 hgb
  have hgc' : goodAt buf (q + A.length + B.length) C := by
    rw [List.length_append, ← Nat.add_assoc] at hgc
    exact hgc
  have hdc := dt_window _ C (q + A.length + B.length) hwc h3 hgc'
  unfold slotDeserialize
  rw [hda, optBind_some, hdb, optBind_some, hdc, optBind_some]
  simp [List.length_append, Nat.add_assoc]

/-- Decoding at an `0x02` tag with four payload bytes available always
yields an `Int32` and advances by 5, whatever the payload. -/
theorem dtDeserialize_int_tag {buf : List Nat} {q : Nat}
    (htag : buf.get? q = some 2) (hlen : q + 5 ≤ buf.length) :
    ∃ m : Int, dtDeserialize buf q = some (.Int32 m, q + 5) := by
  refine ⟨ofBits32 (leNat ((buf.drop (q + 1)).take 4)), ?_⟩
  have h5 : q + 1 + 4 ≤ buf.length := by omega
  unfold dtDeserialize
  rw [htag]
  simp [h5]

/-- The robust window lemma for the final slot: its first ten bytes
(id and offset) and the `0x02` tag of the length field suffice; the last
payload byte may have been overwritten by the tuple region. -/
theorem slot_window_robust {buf : List Nat} {a b c : Int} {sb : List Nat} {q : Nat}
    (hwa : wfDataType (DataType.Int32 a)) (hwb : wfDataType (DataType.Int32 b))
    (hser : slotSerialize ⟨.Int32 a, .Int32 b, .Int32 c⟩ = some sb)
    (hg : goodAt buf q (sb.take 14)) (hlen15 : q + 15 ≤ buf.length) :
    ∃ m : Int, slotDeserialize buf q = some (⟨.Int32 a, .Int32 b, .Int32 m⟩, q + 15) := by
  unfold slotSerialize at hser
  simp only [dtSerialize, optBind_some, Option.some.injEq] at hser
  subst hser
  have hA : ((0x02 : Nat) :: natLeBytes 4 (toBits32 a)).length = 5 := by
    simp [natLeBytes_length]
  have hB : ((0x02 : Nat) :: natLeBytes 4 (toBits32 b)).length = 5 := by
    simp [natLeBytes_length]
  rw [show (14 : Nat) = ((0x02 : Nat) :: natLeBytes 4 (toBits32 a)).length +
      (((0x02 : Nat) :: natLeBytes 4 (toBits32 b)).length + 4) by
        simp [natLeBytes_length], List.append_assoc, List.take_append,
    List.take_append] at hg
  obtain ⟨hga, hg2⟩ := goodAt_append hg
  obtain ⟨hgb, hgc⟩ := goodAt_append hg2
  have hda := dt_window _ _ q hwa rfl hga
  have hdb := dt_window _ _ (q + ((0x02 : Nat) :: natLeBytes 4 (toBits32 a)).length)
    hwb rfl hgb
  have htag : buf.get? (q + 10) = some 2 := by
    have h0 := goodAt_get hgc 0 (by
      simp only [List.length_take, List.length_cons, natLeBytes_length]
      omega)
    simp only [List.get?_eq_getElem?] at h0 ⊢
    rw [hA, hB] at h0
    norm_num at h0 ⊢
    simpa using h0
  obtain ⟨m, hm⟩ := dtDeserialize_int_tag htag (by omega)
  refine ⟨m, ?_⟩
  unfold slotDeserialize
  rw [hda, optBind_some, hdb, optBind_some, hA, hB]
  rw [show q + 5 + 5 = q + 10 by omega] at hm
  rw [hm, optBind_some]

/-- The slot sequence minus its final byte (which the tuple region may
have overwritten on serialization) still decodes: every slot id and
offset is preserved, only the length field of the last slot may differ. -/
theorem slots_chain_robust {buf : List Nat} : ∀ (sl : List Slot) (q : Nat)
    (bs : List Nat), sl ≠ [] → (∀ σ ∈ sl, slotP σ) →
    serializeItems slotSerialize sl = some bs →
    goodAt buf q (bs.take (bs.length - 1)) →
    q + bs.length ≤ buf.length →
    ∃ sl', chainDecodes slotDeserialize buf q sl' (q + bs.length) ∧
      sl'.length = sl.length ∧ sl'.map Slot.offset = sl.map Slot.offset ∧
      sl'.map Slot.tuple_id = sl.map Slot.tuple_id
  | [], _, _, hne, _, _, _, _ => absurd rfl hne
  | [σ], q, bs, _, hP, hser, hg, hlen => by
      simp only [serializeItems, Option.some.injEq] at hser
      obtain ⟨sb, h1, hser⟩ := bind_some_elim hser
      simp only [serializeItems, optBind_some, Option.some.injEq] at hser
      subst hser
      have hPσ := hP σ (List.mem_cons_self _ _)
      obtain ⟨a, b, c, hσ, hwa, hwb, hwc⟩ := hPσ
      subst hσ
      have hlen15 : sb.length = 15 :=
        slotSerialize_length_of_P ⟨a, b, c, rfl, hwa, hwb, hwc⟩ h1
      rw [List.append_nil] at hg hlen
      rw [hlen15] at hg hlen
      obtain ⟨m, hm⟩ := slot_window_robust hwa hwb h1 (by simpa [hlen15] using hg) hlen
      refine ⟨[⟨.Int32 a, .Int32 b, .Int32 m⟩], ⟨q + 15, hm, ?_⟩, rfl, ?_, ?_⟩
      · unfold chainDecodes
        simp [hlen15]
      · rfl
      · rfl
  | σ :: σ2 :: rest, q, bs, _, hP, hser, hg, hlen => by
      simp only [serializeItems] at hser
      obtain ⟨sb, h1, hser⟩ := bind_some_elim hser
      obtain ⟨brest, h2, hser⟩ := bind_some_elim hser
      simp only [Option.some.injEq] at hser
      subst hser
      have hPσ := hP σ (List.mem_cons_self _ _)
      have hsb15 : sb.length = 15 := slotSerialize_length_of_P hPσ h1
      have hbrest : ∃ sb2 brest2, brest = sb2 ++ brest2 ∧ sb2.length = 15 := by
        obtain ⟨sb2, h3, h2'⟩ := bind_some_elim h2
        obtain ⟨brest2, h4, h2'⟩ := bind_some_elim h2'
        simp only [Option.some.injEq] at h2'
        exact ⟨sb2, brest2, h2'.symm,
          slotSerialize_length_of_P (hP σ2 (by simp)) h3⟩
      obtain ⟨sb2, brest2, hbr, hsb2⟩ := hbrest
      have hbrlen : 1 ≤ brest.length := by
        rw [hbr]
        simp only [List.length_append, hsb2]
        omega
      have hg' : goodAt buf q (sb ++ brest.take (brest.length - 1)) := by
        rw [show (sb ++ brest).length - 1 = sb.length + (brest.length - 1) by
          simp only [List.length_append]; omega, List.take_append] at hg
        exact hg
      obtain ⟨hga, hgb⟩ := goodAt_append hg'
      have hdσ := slot_window σ sb q hPσ h1 hga
      have hrest := slots_chain_robust (σ2 :: rest) (q + sb.length) brest
        (by simp) (fun x hx => hP x (List.mem_cons_of_mem _ hx)) h2
        (by simpa [List.length_take] using hgb)
        (by simp only [List.length_append] at hlen; omega)
      obtain ⟨sl', hchain, hl, ho, hi⟩ := hrest
      refine ⟨σ :: sl', ⟨q + sb.length, hdσ, ?_⟩, by simp [hl], by simp [ho],
        by simp [hi]⟩
      have : q + (sb ++ brest).length = q + sb.length + brest.length := by
        simp [List.length_append]
        omega
      rw [this]
      exact hchain

/-- Decoding the slot deque whose encoding, except possibly its very last
byte, stands at `q`: the decoded slots agree with the originals on ids and
offsets. -/
theorem slotDeque_robust {sl : List Slot} {q : Nat} {SB buf : List Nat}
    (hne : sl ≠ []) (hP : ∀ σ ∈ sl, slotP σ)
    (hser : serializeSeq slotSerialize sl = some SB)
    (hg : goodAt buf q (SB.take (SB.length - 1)))
    (hlen : q + SB.length ≤ buf.length)
    (hnum : sl.length < 2 ^ 31) :
    ∃ sl', deserializeDeque slotDeserialize buf q = some (sl', q + SB.length) ∧
      sl'.length = sl.length ∧ sl'.map Slot.offset = sl.map Slot.offset ∧
      sl'.map Slot.tuple_id = sl.map Slot.tuple_id := by
  unfold serializeSeq at hser
  obtain ⟨lenB, h1, hser⟩ := bind_some_elim hser
  obtain ⟨items, h2, hser⟩ := bind_some_elim hser
  simp only [Option.some.injEq] at hser
  subst hser
  have hwr : wrap32 sl.length = (sl.length : Int) := wrap32_small hnum
  have hwf : wfDataType (.Int32 (wrap32 sl.length)) := by
    rw [hwr]
    constructor
    · have : (0 : Int) ≤ (sl.length : Int) := Int.ofNat_nonneg _
      omega
    · exact_mod_cast hnum
  have hlb : lenB.length = 5 := dtSerialize_length hwf h1
  have hitems15 : 15 ≤ items.length := by
    cases sl with
    | nil => exact absurd rfl hne
    | cons σ tail =>
      obtain ⟨sb, h3, h2'⟩ := bind_some_elim h2
      obtain ⟨rest, h4, h2'⟩ := bind_some_elim h2'
      simp only [Option.some.injEq] at h2'
      subst h2'
      have := slotSerialize_length_of_P (hP σ (List.mem_cons_self _ _)) h3
      simp only [List.length_append, this]
      omega
  have hg' : goodAt buf q (lenB ++ items.take (items.length - 1)) := by
    rw [show (lenB ++ items).length - 1 = lenB.length + (items.length - 1) by
      simp only [List.length_append]; omega, List.take_append] at hg
    exact hg
  obtain ⟨hga, hgitems⟩ := goodAt_append hg'
  have hlenDec := dtDeserialize_goodAt hwf h1 hga
  obtain ⟨sl', hchain, hl, ho, hi⟩ := slots_chain_robust sl (q + lenB.length) items hne hP h2
    (by simpa [List.length_take] using hgitems)
    (by simp only [List.length_append] at hlen; omega)
  have hitemsDec := deserializeItems_of_chain hchain
  rw [hl, hlb] at hitemsDec
  refine ⟨sl', ?_, hl, ho, hi⟩
  unfold deserializeDeque
  rw [if_pos (by simp only [List.length_append] at hlen; omega)]
  unfold deserializeSeq
  rw [hlenDec, optBind_some]
  simp only [asInt, hwr, optBind_some, Int.toNat_natCast, dtWidth]
  rw [hitemsDec]
  simp only [Option.some.injEq, Prod.mk.injEq, List.length_append, hlb]
  exact ⟨trivial, by omega⟩

theorem splice_length {b : List Nat} {a : Nat} {seg : List Nat}
    (h : a + seg.length ≤ b.length) : (splice b a seg).length = b.length := by
  unfold splice
  simp only [List.length_append, List.length_take, List.length_drop]
  omega

theorem goodAt_splice {b : List Nat} {a : Nat} {seg : List Nat}
    (h : a + seg.length ≤ b.length) : goodAt (splice b a seg) a seg := by
  unfold splice goodAt
  rw [List.append_assoc, List.drop_left' (by rw [List.length_take]; omega),
    List.take_left]

theorem splice_take {b : List Nat} {a : Nat} {seg : List Nat}
    (h : a ≤ b.length) : (splice b a seg).take a = b.take a := by
  unfold splice
  rw [List.append_assoc, List.take_left' (by rw [List.length_take]; omega)]

theorem goodAt_of_take_eq {b b' : List Nat} {m q : Nat} {bs : List Nat}
    (hm : b'.take m = b.take m) (hle : q + bs.length ≤ m)
    (hg : goodAt b q bs) : goodAt b' q bs := by
  unfold goodAt at *
  have key : ∀ c : List Nat, ((c.take m).drop q).take bs.length =
      (c.drop q).take bs.length := by
    intro c
    rw [List.drop_take, List.take_take, Nat.min_eq_left (by omega)]
  calc (b'.drop q).take bs.length = ((b'.take m).drop q).take bs.length :=
        (key b').symm
    _ = ((b.take m).drop q).take bs.length := by rw [hm]
    _ = (b.drop q).take bs.length := key b
    _ = bs := hg

/-- A window strictly before a later `splice` is untouched by it. -/
theorem goodAt_splice_before {b : List Nat} {a q : Nat} {seg bs : List Nat}
    (hle : q + bs.length ≤ a) (ha : a ≤ b.length)
    (hg : goodAt b q bs) : goodAt (splice b a seg) q bs :=
  goodAt_of_take_eq (splice_take ha) hle hg

/-- `append_tuple` in a loop (the claim's `T1 … Tn`). -/
def appendAll (p : Page) : List (List DataType) → Option Page
  | [] => some p
  | d :: ds => (appendTuple p d).bind (fun p' => appendAll p' ds)

/-- The tuples the appends build, in deque order (most recent first):
appending `d :: ds` after `n0` earlier appends gives ids `n0+1, n0+2, …`
and the deque `[T_last, …, T_first]`. -/
def specTuplesRev (n0 : Nat) : List (List DataType) → List Tuple
  | [] => []
  | d :: ds => specTuplesRev (n0 + 1) ds ++ [⟨.Int32 ((n0 : Int) + 1), d⟩]

/-- The serialized byte size of each appended tuple. -/
def specSizes (n0 : Nat) : List (List DataType) → Option (List Nat)
  | [] => some []
  | d :: ds => do
      let tb ← tupleSerialize ⟨.Int32 ((n0 : Int) + 1), d⟩
      let rest ← specSizes (n0 + 1) ds
      some (tb.length :: rest)

/-- The slots the appends build (no first-append reservation: the caller
folds it into the starting offset before using this for appends 2…n). -/
def specSlots (n0 : Nat) (off0 : Int) : List Nat → List Slot
  | [] => []
  | s :: rest =>
      ⟨.Int32 ((n0 : Int) + 1), .Int32 (off0 - s), .Int32 s⟩ ::
        specSlots (n0 + 1) (off0 - s) rest

theorem appendTuple_tb {p : Page} {d : List DataType} {q : Page} {ls : Int}
    (hls : p.header.last_slot = .Int32 ls) (h : appendTuple p d = some q) :
    ∃ tb, tupleSerialize ⟨.Int32 (ls + 1), d⟩ = some tb := by
  unfold appendTuple at h
  rw [hls] at h
  obtain ⟨ls', hls', h⟩ := bind_some_elim h
  simp only [asInt, Option.some.injEq] at hls'
  subst hls'
  obtain ⟨tb, htb, h⟩ := bind_some_elim h
  exact ⟨tb, htb⟩

/-- Appends from a page that already holds `n ≥ 1` tuples: the exact
resulting page. -/
theorem appendAll_canonical (ds : List (List DataType)) :
    ∀ (pt : PageType) (pn np : DataType) (sl : List Slot) (dt : List Tuple)
      (n : Nat) (off fr : Int) (q : Page), 1 ≤ n → 0 ≤ fr →
    appendAll ⟨⟨pt, .Int32 fr, pn, np, .Int32 (n : Int), .Int32 off⟩, sl, dt⟩ ds
      = some q →
    ∃ szs, specSizes n ds = some szs ∧
      q = ⟨⟨pt, .Int32 (fr - ((15 * szs.length + szs.sum : Nat) : Int)), pn, np,
            .Int32 ((n + ds.length : Nat) : Int), .Int32 (off - ((szs.sum : Nat) : Int))⟩,
           sl ++ specSlots n off szs, specTuplesRev n ds ++ dt⟩ ∧
      0 ≤ fr - ((15 * szs.length + szs.sum : Nat) : Int) := by
  induction ds with
  | nil =>
    intro pt pn np sl dt n off fr q hn hfr0 h
    simp only [appendAll, Option.some.injEq] at h
    subst h
    refine ⟨[], rfl, ?_, by simpa using hfr0⟩
    simp [specSlots, specTuplesRev]
  | cons d ds ih =>
    intro pt pn np sl dt n off fr q hn hfr0 h
    simp only [appendAll] at h
    obtain ⟨p1, h1, h2⟩ := bind_some_elim h
    obtain ⟨tb, htb⟩ := appendTuple_tb rfl h1
    have hn0 : ((n : Nat) : Int) ≠ 0 := by
      have : (1 : Int) ≤ (n : Int) := by exact_mod_cast hn
      omega
    have htbn : (0 : Int) ≤ (tb.length : Int) := Int.ofNat_nonneg _
    have hspec := @appendTuple_spec
      ⟨⟨pt, .Int32 fr, pn, np, .Int32 (n : Int), .Int32 off⟩, sl, dt⟩
      d (n : Int) off fr (tb.length : Int) _ rfl rfl rfl htb
      (by rw [if_neg hn0])
    by_cases hcond : 15 + (tb.length : Int) ≤ fr
    · have h1' := hspec.1 hcond
      rw [h1] at h1'
      have hp1 := (Option.some.injEq _ _).mp h1'.symm
      subst hp1
      have hc1 : ((n : Int) + 1) = (((n + 1 : Nat)) : Int) := by push_cast; ring
      rw [hc1] at h2
      obtain ⟨szs', hs', hq, hfr'⟩ := ih pt pn np
        (sl ++ [⟨.Int32 (((n + 1 : Nat)) : Int), .Int32 (off - (tb.length : Int)),
          .Int32 (tb.length : Int)⟩])
        (⟨.Int32 (((n + 1 : Nat)) : Int), d⟩ :: dt) (n + 1)
        (off - (tb.length : Int)) (fr - 15 - (tb.length : Int)) q
        (by omega) (by omega) h2
      refine ⟨tb.length :: szs', ?_, ?_, ?_⟩
      · unfold specSizes
        rw [htb, optBind_some, hs', optBind_some]
      · rw [hq]
        have e1 : fr - 15 - (tb.length : Int) - ((15 * szs'.length + szs'.sum : Nat) : Int)
            = fr - ((15 * (tb.length :: szs').length + (tb.length :: szs').sum : Nat) : Int) := by
          simp only [List.length_cons, List.sum_cons]
          push_cast
          ring
        have e2 : ((n + 1 + ds.length : Nat) : Int) = ((n + (ds.length + 1) : Nat) : Int) := by
          congr 1
          omega
        have e3 : off - (tb.length : Int) - ((szs'.sum : Nat) : Int)
            = off - (((tb.length :: szs').sum : Nat) : Int) := by
          simp only [List.sum_cons]
          push_cast
          ring
        rw [e1, e2, e3]
        show _ = Page.mk _ (_ ++ specSlots n off (tb.length :: szs'))
          (specTuplesRev n (d :: ds) ++ _)
        simp only [specSlots, specTuplesRev, List.append_assoc, List.singleton_append,
          List.cons_append, List.nil_append, List.length_cons]
        rw [hc1]
      · have e4 : ((15 * (tb.length :: szs').length + (tb.length :: szs').sum : Nat) : Int)
            = 15 + (tb.length : Int) + ((15 * szs'.length + szs'.sum : Nat) : Int) := by
          simp only [List.length_cons, List.sum_cons]
          push_cast
          ring
        rw [e4]
        omega
    · exfalso
      have := hspec.2 (by omega)
      rw [h1] at this
      exact Option.noConfusion this

/-- The exact page state after `n ≥ 1` successful appends to a fresh
page. -/
theorem appendAll_fresh {pt : PageType} {pn np : DataType}
    {d0 : List DataType} {ds' : List (List DataType)} {p : Page}
    (happ : appendAll (Page.new (Header.new pt pn np none) none none)
      (d0 :: ds') = some p) :
    ∃ tb1 szs',
      tupleSerialize ⟨.Int32 1, d0⟩ = some tb1 ∧
      specSizes 1 ds' = some szs' ∧
      p = ⟨⟨pt,
            .Int32 (4096 - 15 - ((tb1.length : Int) + 5)
              - ((15 * szs'.length + szs'.sum : Nat) : Int)),
            pn, np,
            .Int32 ((1 + ds'.length : Nat) : Int),
            .Int32 (4095 - ((tb1.length : Int) + 5) - ((szs'.sum : Nat) : Int))⟩,
          ⟨.Int32 1, .Int32 (4095 - ((tb1.length : Int) + 5)),
              .Int32 ((tb1.length : Int) + 5)⟩
            :: specSlots 1 (4095 - ((tb1.length : Int) + 5)) szs',
          specTuplesRev 1 ds' ++ [⟨.Int32 1, d0⟩]⟩ ∧
      0 ≤ 4096 - 15 - ((tb1.length : Int) + 5)
        - ((15 * szs'.length + szs'.sum : Nat) : Int) := by
  simp only [appendAll] at happ
  obtain ⟨p1, h1, h2⟩ := bind_some_elim happ
  obtain ⟨tb1, htb1⟩ := appendTuple_tb rfl h1
  have htb1' : tupleSerialize ⟨.Int32 1, d0⟩ = some tb1 := by
    rw [show (1 : Int) = 0 + 1 by norm_num]
    exact htb1
  have hspec := @appendTuple_spec
    (Page.new (Header.new pt pn np none) none none)
    d0 0 4095 4096 ((tb1.length : Int) + 5) _ rfl rfl rfl htb1
    (by rw [if_pos rfl])
  have htbn : (0 : Int) ≤ (tb1.length : Int) := Int.ofNat_nonneg _
  by_cases hcond : 15 + ((tb1.length : Int) + 5) ≤ 4096
  · have h1' := hspec.1 hcond
    rw [h1] at h1'
    have hp1 := (Option.some.injEq _ _).mp h1'.symm
    subst hp1
    have hc1 : ((0 : Int) + 1) = (((1 : Nat)) : Int) := by norm_num
    rw [hc1] at h2
    obtain ⟨szs', hs', hq, hfr'⟩ := appendAll_canonical ds' pt pn np
      [⟨.Int32 (((1 : Nat)) : Int), .Int32 (4095 - ((tb1.length : Int) + 5)),
        .Int32 ((tb1.length : Int) + 5)⟩]
      [⟨.Int32 (((1 : Nat)) : Int), d0⟩] 1
      (4095 - ((tb1.length : Int) + 5)) (4096 - 15 - ((tb1.length : Int) + 5)) p
      (le_refl 1) (by omega) h2
    refine ⟨tb1, szs', htb1', hs', ?_, by omega⟩
    rw [hq]
    simp only [List.singleton_append, Page.mk.injEq, Header.mk.injEq,
      Nat.cast_one]
  · exfalso
    have := hspec.2 (by omega)
    rw [h1] at this
    exact Option.noConfusion this

theorem dtSerialize_pos {v : DataType} {bs : List Nat}
    (h : dtSerialize v = some bs) : 1 ≤ bs.length := by
  cases v with
  | Varchar s =>
    simp only [dtSerialize] at h
    split at h
    · exact Option.noConfusion h
    · cases h; simp
  | Int32 n => cases h; simp
  | Float64 b => cases h; simp
  | Bool b => cases h; simp
  | Null => cases h; simp

theorem serializeItems_count : ∀ {xs : List DataType} {bs : List Nat},
    serializeItems dtSerialize xs = some bs → xs.length ≤ bs.length
  | [], bs, h => by cases h; simp
  | x :: xs, bs, h => by
      obtain ⟨bx, h1, h⟩ := bind_some_elim h
      obtain ⟨brest, h2, h⟩ := bind_some_elim h
      cases h
      have := serializeItems_count h2
      have := dtSerialize_pos h1
      simp only [List.length_cons, List.length_append]
      omega

theorem serializeItems_append' {ser : β → Option (List Nat)}
    : ∀ {xs ys : List β} {a b : List Nat},
    serializeItems ser xs = some a → serializeItems ser ys = some b →
    serializeItems ser (xs ++ ys) = some (a ++ b)
  | [], ys, a, b, ha, hb => by
      cases ha
      simpa using hb
  | x :: xs, ys, a, b, ha, hb => by
      obtain ⟨bx, h1, ha⟩ := bind_some_elim ha
      obtain ⟨brest, h2, ha⟩ := bind_some_elim ha
      simp only [Option.some.injEq] at ha
      subst ha
      have hrec := serializeItems_append' h2 hb
      show serializeItems ser (x :: (xs ++ ys)) = some (bx ++ brest ++ b)
      simp only [serializeItems, h1, optBind_some, hrec, List.append_assoc]

theorem specSlots_length : ∀ (szs : List Nat) (n0 : Nat) (off0 : Int),
    (specSlots n0 off0 szs).length = szs.length
  | [], _, _ => rfl
  | s :: rest, n0, off0 => by
      simp only [specSlots, List.length_cons, specSlots_length rest]

theorem specSlots_P : ∀ (szs : List Nat) (n0 : Nat) (off0 : Int),
    ((n0 + szs.length : Nat) : Int) < 2 ^ 31 →
    -(2 ^ 31) ≤ off0 - ((szs.sum : Nat) : Int) → off0 < 2 ^ 31 →
    ((szs.sum : Nat) : Int) < 2 ^ 31 →
    ∀ σ ∈ specSlots n0 off0 szs, slotP σ
  | [], _, _, _, _, _, _ => by simp [specSlots]
  | s :: rest, n0, off0, hhi, hlo, hoffhi, hsum => by
      intro σ hσ
      simp only [specSlots, List.mem_cons] at hσ
      have hcast : ((s + rest.sum : Nat) : Int) = (s : Int) + (rest.sum : Int) := by
        push_cast; ring
      have hs0 : (0 : Int) ≤ (s : Int) := Int.ofNat_nonneg _
      have hr0 : (0 : Int) ≤ (rest.sum : Int) := Int.ofNat_nonneg _
      simp only [List.sum_cons, hcast] at hlo hsum
      rcases hσ with h | h
      · subst h
        refine ⟨(n0 : Int) + 1, off0 - s, s, rfl, ⟨by omega, ?_⟩, ⟨by omega, by omega⟩,
          ⟨by omega, by omega⟩⟩
        have : ((n0 : Int) + 1) ≤ ((n0 + (rest.length + 1) : Nat) : Int) := by
          push_cast; omega
        simp only [List.length_cons] at hhi
        omega
      · refine specSlots_P rest (n0 + 1) (off0 - s) ?_ (by omega) (by omega)
          (by omega) σ h
        simp only [List.length_cons] at hhi
        have : ((n0 + 1 + rest.length : Nat) : Int) = ((n0 + (rest.length + 1) : Nat) : Int) := by
          push_cast; ring
        omega

theorem specSlots_getLast : ∀ (szs : List Nat) (n0 : Nat) (off0 : Int),
    szs ≠ [] → ∃ σ, (specSlots n0 off0 szs).getLast? = some σ ∧
      σ.offset = .Int32 (off0 - ((szs.sum : Nat) : Int))
  | [], _, _, hne => absurd rfl hne
  | [s], n0, off0, _ => by
      refine ⟨⟨.Int32 ((n0 : Int) + 1), .Int32 (off0 - s), .Int32 s⟩, ?_, ?_⟩
      · simp [specSlots]
      · simp only [List.sum_cons, List.sum_nil]
        norm_num
  | s :: s2 :: rest, n0, off0, _ => by
      obtain ⟨σ, hσ, hoff⟩ := specSlots_getLast (s2 :: rest) (n0 + 1) (off0 - s)
        (by simp)
      refine ⟨σ, ?_, ?_⟩
      · simp only [specSlots]
        rw [List.getLast?_cons_cons]
        exact hσ
      · rw [hoff]
        congr 1
        simp only [List.sum_cons]
        push_cast
        ring

theorem slots_serializeItems : ∀ (sl : List Slot), (∀ σ ∈ sl, slotP σ) →
    ∃ items, serializeItems slotSerialize sl = some items ∧
      items.length = 15 * sl.length
  | [], _ => ⟨[], rfl, rfl⟩
  | σ :: sl, hP => by
      obtain ⟨a, b, c, hσ, -, -, -⟩ := hP σ (List.mem_cons_self _ _)
      obtain ⟨items, hitems, hlen⟩ :=
        slots_serializeItems sl (fun τ hτ => hP τ (List.mem_cons_of_mem _ hτ))
      have hsb : slotSerialize σ = some ((0x02 :: natLeBytes 4 (toBits32 a)) ++
          ((0x02 :: natLeBytes 4 (toBits32 b)) ++ (0x02 :: natLeBytes 4 (toBits32 c)))) := by
        subst hσ
        unfold slotSerialize
        simp only [dtSerialize, optBind_some, List.append_assoc]
      refine ⟨(0x02 :: natLeBytes 4 (toBits32 a)) ++
          ((0x02 :: natLeBytes 4 (toBits32 b)) ++ (0x02 :: natLeBytes 4 (toBits32 c)))
          ++ items, ?_, ?_⟩
      · simp only [serializeItems, hsb, optBind_some, hitems]
      · simp only [List.length_append, List.length_cons, natLeBytes_length, hlen]
        ring

theorem specTuplesRev_length : ∀ (ds : List (List DataType)) (n0 : Nat),
    (specTuplesRev n0 ds).length = ds.length
  | [], _ => rfl
  | d :: ds, n0 => by
      simp only [specTuplesRev, List.length_append, List.length_cons,
        specTuplesRev_length ds, List.length_nil]

theorem specTuplesRev_mem : ∀ {ds : List (List DataType)} {n0 : Nat} {tp : Tuple},
    tp ∈ specTuplesRev n0 ds →
    ∃ d ∈ ds, ∃ m : Nat, n0 < m ∧ m ≤ n0 + ds.length ∧
      tp = ⟨.Int32 ((m : Nat) : Int), d⟩
  | [], _, _, h => by simp [specTuplesRev] at h
  | d :: ds, n0, tp, h => by
      simp only [specTuplesRev, List.mem_append, List.mem_singleton] at h
      rcases h with h | h
      · obtain ⟨d', hd', m, hm1, hm2, htp⟩ := specTuplesRev_mem h
        exact ⟨d', List.mem_cons_of_mem _ hd', m, by omega,
          by simp only [List.length_cons]; omega, htp⟩
      · refine ⟨d, List.mem_cons_self _ _, n0 + 1, by omega,
          by simp only [List.length_cons]; omega, ?_⟩
        rw [h]
        first
        | rfl
        | (congr 1; push_cast; ring)

theorem specSizes_len : ∀ {ds : List (List DataType)} {n0 : Nat} {szs : List Nat},
    specSizes n0 ds = some szs → szs.length = ds.length
  | [], _, szs, h => by cases h; rfl
  | d :: ds, n0, szs, h => by
      obtain ⟨tb, h1, h⟩ := bind_some_elim h
      obtain ⟨rest, h2, h⟩ := bind_some_elim h
      cases h
      simp only [List.length_cons, specSizes_len h2]

theorem specSizes_mem_tuple : ∀ {ds : List (List DataType)} {n0 : Nat}
    {szs : List Nat}, specSizes n0 ds = some szs →
    ∀ tp ∈ specTuplesRev n0 ds, ∃ tb, tupleSerialize tp = some tb ∧
      tb.length ≤ szs.sum
  | [], _, _, _, tp, h => by simp [specTuplesRev] at h
  | d :: ds, n0, szs, hs, tp, h => by
      obtain ⟨tb, h1, hs⟩ := bind_some_elim hs
      obtain ⟨rest, h2, hs⟩ := bind_some_elim hs
      cases hs
      simp only [specTuplesRev, List.mem_append, List.mem_singleton] at h
      rcases h with h | h
      · obtain ⟨tb', htb', hle⟩ := specSizes_mem_tuple h2 tp h
        exact ⟨tb', htb', by simp only [List.sum_cons]; omega⟩
      · subst h
        exact ⟨tb, h1, by simp only [List.sum_cons]; omega⟩

theorem tuples_serializeItems : ∀ (ds : List (List DataType)) (n0 : Nat)
    (szs : List Nat), specSizes n0 ds = some szs →
    ∃ items, serializeItems tupleSerialize (specTuplesRev n0 ds) = some items ∧
      items.length = szs.sum
  | [], _, szs, h => by cases h; exact ⟨[], rfl, rfl⟩
  | d :: ds, n0, szs, h => by
      obtain ⟨tb, h1, h⟩ := bind_some_elim h
      obtain ⟨rest, h2, h⟩ := bind_some_elim h
      cases h
      obtain ⟨items, hitems, hlen⟩ := tuples_serializeItems ds (n0 + 1) rest h2
      have hsingle : serializeItems tupleSerialize [⟨.Int32 ((n0 : Int) + 1), d⟩]
          = some (tb ++ []) := by
        simp only [serializeItems, h1, optBind_some]
      refine ⟨items ++ (tb ++ []), ?_, ?_⟩
      · exact serializeItems_append' hitems hsingle
      · simp only [List.length_append, List.length_nil, List.sum_cons, hlen]
        omega

/-- The `DataType` inside a `PageType`. -/
def ptValue : PageType → DataType
  | .Data d => d
  | .Index d => d

theorem tupleSerialize_ge10 {k : Int} {d : List DataType} {tb : List Nat}
    (h : tupleSerialize ⟨.Int32 k, d⟩ = some tb) : 10 ≤ tb.length := by
  unfold tupleSerialize at h
  obtain ⟨a, h1, h⟩ := bind_some_elim h
  obtain ⟨b, h2, h⟩ := bind_some_elim h
  cases h
  unfold serializeSeq at h2
  obtain ⟨lenB, h3, h2⟩ := bind_some_elim h2
  obtain ⟨items, h4, h2⟩ := bind_some_elim h2
  cases h2
  have ha : a.length = 5 := by cases h1; simp [natLeBytes_length]
  have hl : lenB.length = 5 := by cases h3; simp [natLeBytes_length]
  simp only [List.length_append, ha, hl]
  omega

/-- Decoding a serialized header whose page type is the `"DATA"` or
`"INDEX"` Varchar and whose other fields are well formed. -/
theorem headerDecode {pt : PageType} {pn np ls off : DataType} {frn : Int}
    {buf hdrB : List Nat} {q : Nat}
    (hpt : ptValue pt = .Varchar strDATA ∨ ptValue pt = .Varchar strINDEX)
    (hpn : wfDataType pn) (hnp : wfDataType np)
    (hfr : wfDataType (.Int32 frn))
    (hserh : headerSerialize ⟨pt, .Int32 frn, pn, np, ls, off⟩ = some hdrB)
    (hg : goodAt buf q hdrB) :
    ∃ pt', headerDeserialize buf q =
      some (Header.new pt' pn np (some (.Int32 frn)), q + hdrB.length) := by
  unfold headerSerialize at hserh
  obtain ⟨ptB, h1, hserh⟩ := bind_some_elim hserh
  obtain ⟨fsB, h2, hserh⟩ := bind_some_elim hserh
  obtain ⟨pnB, h3, hserh⟩ := bind_some_elim hserh
  obtain ⟨npB, h4, hserh⟩ := bind_some_elim hserh
  cases hserh
  rw [show ptB ++ fsB ++ pnB ++ npB = ptB ++ (fsB ++ (pnB ++ npB)) by
    simp [List.append_assoc]] at hg
  obtain ⟨hg1, hg'⟩ := goodAt_append hg
  obtain ⟨hg2, hg''⟩ := goodAt_append hg'
  obtain ⟨hg3, hg4⟩ := goodAt_append hg''
  have hptSer : dtSerialize (ptValue pt) = some ptB := by
    cases pt <;> simpa [pageTypeSerialize, ptValue] using h1
  have hwfpt : wfDataType (ptValue pt) := by
    rcases hpt with h | h <;> rw [h] <;> simp [wfDataType, strDATA, strINDEX]
  have hdpt := dt_window _ ptB q hwfpt hptSer hg1
  have hdfs := dt_window _ fsB (q + ptB.length) hfr h2 hg2
  have hdpn := dt_window _ pnB (q + ptB.length + fsB.length) hpn h3 hg3
  have hdnp := dt_window _ npB (q + ptB.length + fsB.length + pnB.length) hnp h4 hg4
  have hptLen : ptB.length = dtWidth (ptValue pt) := dtSerialize_length hwfpt hptSer
  have hptDec : ∃ pt', pageTypeDeserialize buf q = some (pt', q + ptB.length) := by
    unfold pageTypeDeserialize
    rw [hdpt, optBind_some]
    rcases hpt with h | h
    · refine ⟨.Data (.Varchar strDATA), ?_⟩
      rw [h] at hptLen ⊢
      simp [hptLen, dtWidth]
    · refine ⟨.Index (.Varchar strINDEX), ?_⟩
      rw [h] at hptLen ⊢
      simp [hptLen, dtWidth, strDATA, strINDEX]
  obtain ⟨pt', hptDec⟩ := hptDec
  refine ⟨pt', ?_⟩
  unfold headerDeserialize
  rw [hptDec, optBind_some, hdfs, optBind_some, hdpn, optBind_some, hdnp,
    optBind_some]
  simp [List.length_append, Nat.add_assoc]

theorem asInt_int (n : Int) : asInt (.Int32 n) = some n := rfl

theorem goodAt_prefix {buf : List Nat} {q : Nat} {bs : List Nat} {m : Nat}
    (h : goodAt buf q bs) (hm : m ≤ bs.length) : goodAt buf q (bs.take m) := by
  unfold goodAt
  rw [List.length_take, Nat.min_eq_left hm]
  exact goodAt_take h m hm

/-- The last slot of `append_tuple`'s slot deque records the offset of the
last tuple written, `off1 - Σ sizes`. -/
theorem slots_getLast_offset (a c off1 : Int) : ∀ (szs' : List Nat),
    ∃ σ0, ((⟨.Int32 a, .Int32 off1, .Int32 c⟩ : Slot) ::
        specSlots 1 off1 szs').getLast? = some σ0 ∧
      σ0.offset = .Int32 (off1 - ((szs'.sum : Nat) : Int))
  | [] => by
      refine ⟨⟨.Int32 a, .Int32 off1, .Int32 c⟩, ?_, ?_⟩
      · simp [specSlots]
      · simp only [List.sum_nil, Nat.cast_zero, sub_zero]
  | s :: rest => by
      obtain ⟨σ, hσ, hoff⟩ := specSlots_getLast (s :: rest) 1 off1 (by simp)
      refine ⟨σ, ?_, hoff⟩
      have hcons : specSlots 1 off1 (s :: rest) =
          ⟨.Int32 ((1 : Nat) + 1), .Int32 (off1 - s), .Int32 s⟩ ::
            specSlots 2 (off1 - s) rest := rfl
      rw [hcons] at hσ ⊢
      rw [List.getLast?_cons_cons]
      exact hσ

theorem tupleSerialize_data_le {tp : Tuple} {tb : List Nat}
    (h : tupleSerialize tp = some tb) : tp.data.length ≤ tb.length := by
  unfold tupleSerialize at h
  obtain ⟨a, h1, h⟩ := bind_some_elim h
  obtain ⟨b, h2, h⟩ := bind_some_elim h
  cases h
  unfold serializeSeq at h2
  obtain ⟨lenB, h3, h2⟩ := bind_some_elim h2
  obtain ⟨items, h4, h2⟩ := bind_some_elim h2
  cases h2
  have := serializeItems_count h4
  simp only [List.length_append]
  omega

/-- The byte length of a serialized slot deque of well-shaped slots. -/
theorem serializeSeq_length_slots {sl : List Slot} {SB : List Nat}
    (hP : ∀ σ ∈ sl, slotP σ) (hn : sl.length < 2 ^ 31)
    (hser : serializeSeq slotSerialize sl = some SB) :
    SB.length = 5 + 15 * sl.length := by
  unfold serializeSeq at hser
  obtain ⟨lenB, h1, hser⟩ := bind_some_elim hser
  obtain ⟨items, h2, hser⟩ := bind_some_elim hser
  cases hser
  have hwr : wrap32 sl.length = (sl.length : Int) := wrap32_small hn
  have hwf : wfDataType (.Int32 (wrap32 sl.length)) := by
    rw [hwr]
    exact ⟨Int.ofNat_nonneg _, by exact_mod_cast hn⟩
  have hlb : lenB.length = 5 := dtSerialize_length hwf h1
  obtain ⟨items0, h0, hlen0⟩ := slots_serializeItems sl hP
  rw [h0] at h2
  cases h2
  simp only [List.length_append, hlb, hlen0]

/-- The byte length of the serialized tuple deque of an append run. -/
theorem serializeSeq_length_tuples {n0 : Nat} {ds : List (List DataType)}
    {szs : List Nat} {TB : List Nat}
    (hs : specSizes n0 ds = some szs) (hn : ds.length < 2 ^ 31)
    (hser : serializeSeq tupleSerialize (specTuplesRev n0 ds) = some TB) :
    TB.length = 5 + szs.sum := by
  unfold serializeSeq at hser
  obtain ⟨lenB, h1, hser⟩ := bind_some_elim hser
  obtain ⟨items, h2, hser⟩ := bind_some_elim hser
  cases hser
  have hlenrw : (specTuplesRev n0 ds).length = ds.length :=
    specTuplesRev_length ds n0
  rw [hlenrw] at h1
  have hwr : wrap32 ds.length = (ds.length : Int) := wrap32_small hn
  have hwf : wfDataType (.Int32 (wrap32 ds.length)) := by
    rw [hwr]
    exact ⟨Int.ofNat_nonneg _, by exact_mod_cast hn⟩
  have hlb : lenB.length = 5 := dtSerialize_length hwf h1
  obtain ⟨items0, h0, hlen0⟩ := tuples_serializeItems ds n0 szs hs
  rw [h0] at h2
  cases h2
  simp only [List.length_append, hlb, hlen0]

theorem ite_some_elim {α : Type _} {c : Prop} [Decidable c] {x : Option α}
    {b : α} (h : (if c then x else none) = some b) : c ∧ x = some b := by
  split at h
  · exact ⟨by assumption, h⟩
  · exact Option.noConfusion h

/-- C2: appending tuples `T1 … Tn` (`n ≥ 1`, each value within its
declared constraints, every append succeeding) to a fresh page over a
`DATA` or `INDEX` header with well-formed page-number fields, then
serializing the page into its 4096-byte frame (succeeding) and
deserializing that frame, yields a page holding exactly the appended
tuples: its tuple deque equals the appended one, `specTuplesRev 0 ds`,
the tuples with ids `1 … n` carrying `T1 … Tn`. -/
theorem C2_page_roundtrip {pt : PageType} {pn np : DataType}
    {ds : List (List DataType)} {p : Page} {buf : List Nat}
    (hpt : ptValue pt = .Varchar strDATA ∨ ptValue pt = .Varchar strINDEX)
    (hpn : wfDataType pn) (hnp : wfDataType np)
    (hwfv : ∀ d ∈ ds, ∀ v ∈ d, wfDataType v)
    (hne : ds ≠ [])
    (happ : appendAll (Page.new (Header.new pt pn np none) none none) ds
      = some p)
    (hser : pageSerialize p = some buf) :
    ∃ p' o, pageDeserialize buf 0 = some (p', o) ∧
      p'.data = p.data ∧ p.data = specTuplesRev 0 ds := by
  cases ds with
  | nil => exact absurd rfl hne
  | cons d0 ds' =>
  obtain ⟨tb1, szs', htb1, hs', hp, hfr⟩ := appendAll_fresh happ
  have hL : szs'.length = ds'.length := specSizes_len hs'
  have hs1ge : 10 ≤ tb1.length := tupleSerialize_ge10 htb1
  have hbound : tb1.length + 15 * szs'.length + szs'.sum ≤ 4076 := by omega
  have hHdr : p.header = ⟨pt,
      .Int32 (4096 - 15 - ((tb1.length : Int) + 5)
        - ((15 * szs'.length + szs'.sum : Nat) : Int)), pn, np,
      .Int32 ((1 + ds'.length : Nat) : Int),
      .Int32 (4095 - ((tb1.length : Int) + 5) - ((szs'.sum : Nat) : Int))⟩ := by
    rw [hp]
  have hSl : p.slots =
      ⟨.Int32 1, .Int32 (4095 - ((tb1.length : Int) + 5)),
          .Int32 ((tb1.length : Int) + 5)⟩ ::
        specSlots 1 (4095 - ((tb1.length : Int) + 5)) szs' := by
    rw [hp]
  have hDt : p.data = specTuplesRev 1 ds' ++ [⟨.Int32 1, d0⟩] := by rw [hp]
  have hdata0 : p.data = specTuplesRev 0 (d0 :: ds') := by
    rw [hDt]
    simp [specTuplesRev]
  have hoffE : p.header.offset =
      .Int32 (4095 - ((tb1.length : Int) + 5) - ((szs'.sum : Nat) : Int)) := by
    rw [hp]
  have hs0 : specSizes 0 (d0 :: ds') = some (tb1.length :: szs') := by
    simp only [specSizes]
    rw [show ((0 : Nat) : Int) + 1 = 1 by norm_num]
    rw [htb1, optBind_some]
    rw [show (0 + 1 : Nat) = 1 from rfl, hs', optBind_some]
  unfold pageSerialize at hser
  obtain ⟨hdrB, hserh, hser⟩ := bind_some_elim hser
  obtain ⟨hg1, hser⟩ := ite_some_elim hser
  obtain ⟨SB, hserSB, hser⟩ := bind_some_elim hser
  obtain ⟨hg2, hser⟩ := ite_some_elim hser
  obtain ⟨TB, hserTB, hser⟩ := bind_some_elim hser
  obtain ⟨toff, htoff, hser⟩ := bind_some_elim hser
  obtain ⟨hg3, hser⟩ := ite_some_elim hser
  obtain ⟨hg4, hser⟩ := ite_some_elim hser
  rw [hHdr] at hserh
  rw [hSl] at hserSB
  rw [hdata0] at hserTB
  rw [hoffE, asInt_int, Option.some.injEq] at htoff
  subst htoff
  simp only [MAX_PAGE_SIZE] at hg1 hg2 hg3 hg4
  simp only [MAX_PAGE_SIZE, Option.some.injEq] at hser
  set NE := (4095 - ((tb1.length : Int) + 5)
      - ((szs'.sum : Nat) : Int)).toNat with hNE
  set b1 := splice (List.replicate 4096 0) 0 hdrB with hb1
  set b2 := splice b1 hdrB.length SB with hb2
  set b3 := splice b2 NE TB with hb3
  have hslLen : ((⟨.Int32 1, .Int32 (4095 - ((tb1.length : Int) + 5)),
          .Int32 ((tb1.length : Int) + 5)⟩ : Slot) ::
        specSlots 1 (4095 - ((tb1.length : Int) + 5)) szs').length
      = 1 + szs'.length := by
    simp only [List.length_cons, specSlots_length]
    omega
  have hslP : ∀ σ ∈ ((⟨.Int32 1, .Int32 (4095 - ((tb1.length : Int) + 5)),
          .Int32 ((tb1.length : Int) + 5)⟩ : Slot) ::
        specSlots 1 (4095 - ((tb1.length : Int) + 5)) szs'), slotP σ := by
    intro σ hσ
    rcases List.mem_cons.mp hσ with h | h
    · subst h
      exact ⟨1, 4095 - ((tb1.length : Int) + 5), (tb1.length : Int) + 5, rfl,
        ⟨by omega, by omega⟩, ⟨by omega, by omega⟩, ⟨by omega, by omega⟩⟩
    · exact specSlots_P szs' 1 _ (by omega) (by omega) (by omega) (by omega) σ h
  have hSBlen : SB.length = 5 + 15 * (1 + szs'.length) := by
    have h := serializeSeq_length_slots hslP (by rw [hslLen]; omega) hserSB
    rw [hslLen] at h
    exact h
  have hTBlen : TB.length = 5 + (tb1.length + szs'.sum) := by
    have h := serializeSeq_length_tuples hs0
      (by simp only [List.length_cons]; omega) hserTB
    rw [h]
    simp [List.sum_cons]
  have hHleN : hdrB.length + SB.length ≤ NE + 1 := by omega
  have hb1len : b1.length = 4096 := by
    rw [hb1, splice_length (by simp only [List.length_replicate]; omega)]
    rw [List.length_replicate]
  have hb2len : b2.length = 4096 := by
    rw [hb2, splice_length (by rw [hb1len]; omega), hb1len]
  have hb3len : b3.length = 4096 := by
    rw [hb3, splice_length (by rw [hb2len]; omega), hb2len]
  have hgH1 : goodAt b1 0 hdrB :=
    goodAt_splice (by simp only [List.length_replicate]; omega)
  have hgH2 : goodAt b2 0 hdrB :=
    goodAt_splice_before (by omega) (by rw [hb1len]; omega) hgH1
  have hgH3 : goodAt b3 0 hdrB :=
    goodAt_splice_before (by omega) (by rw [hb2len]; omega) hgH2
  have hgSB2 : goodAt b2 hdrB.length SB := goodAt_splice (by rw [hb1len]; omega)
  have hgSB2' : goodAt b2 hdrB.length (SB.take (SB.length - 1)) :=
    goodAt_prefix hgSB2 (by omega)
  have hgSB3 : goodAt b3 hdrB.length (SB.take (SB.length - 1)) :=
    goodAt_splice_before (by simp only [List.length_take]; omega)
      (by rw [hb2len]; omega) hgSB2'
  have hgTB3 : goodAt b3 NE TB := goodAt_splice (by rw [hb2len]; omega)
  have hwfFr : wfDataType (.Int32 (4096 - 15 - ((tb1.length : Int) + 5)
      - ((15 * szs'.length + szs'.sum : Nat) : Int))) := ⟨by omega, by omega⟩
  obtain ⟨pt', hHdrDec⟩ := headerDecode hpt hpn hnp hwfFr hserh hgH3
  simp only [Nat.zero_add] at hHdrDec
  obtain ⟨sl', hSlDec, hslen', hoffs', hids'⟩ := slotDeque_robust
    (List.cons_ne_nil _ _) hslP hserSB hgSB3 (by rw [hb3len]; omega)
    (by rw [hslLen]; omega)
  obtain ⟨σ0, hσ0last, hσ0off⟩ := slots_getLast_offset 1
    ((tb1.length : Int) + 5) (4095 - ((tb1.length : Int) + 5)) szs'
  have hmap : sl'.getLast?.map Slot.offset = some σ0.offset := by
    rw [← List.getLast?_map Slot.offset sl', hoffs', List.getLast?_map,
      hσ0last, Option.map_some']
  obtain ⟨σ0', hlast'⟩ : ∃ σ, sl'.getLast? = some σ := by
    cases h : sl'.getLast? with
    | none => rw [h] at hmap; exact Option.noConfusion hmap
    | some σ => exact ⟨σ, rfl⟩
  have hσ0'off : σ0'.offset =
      .Int32 (4095 - ((tb1.length : Int) + 5) - ((szs'.sum : Nat) : Int)) := by
    rw [hlast', Option.map_some'] at hmap
    rw [Option.some.inj hmap, hσ0off]
  have hwfT : ∀ tp ∈ specTuplesRev 0 (d0 :: ds'), wfTuple tp := by
    intro tp htp
    obtain ⟨d, hd, m, hm1, hm2, htpEq⟩ := specTuplesRev_mem htp
    obtain ⟨tb, htb, htble⟩ := specSizes_mem_tuple hs0 tp htp
    subst htpEq
    have hdl : d.length ≤ tb.length := tupleSerialize_data_le htb
    simp only [List.sum_cons] at htble
    have hlenc : (d0 :: ds').length = ds'.length + 1 := List.length_cons _ _
    refine ⟨⟨by omega, by omega⟩, fun v hv => hwfv d hd v hv, ?_⟩
    show d.length < 2 ^ 31
    omega
  have hTplDec : deserializeDeque tupleDeserialize b3 NE
      = some (specTuplesRev 0 (d0 :: ds'), NE + TB.length) :=
    tupleDeque_goodAt hwfT hserTB hgTB3
      (by rw [specTuplesRev_length]; simp only [List.length_cons]; omega)
      (by rw [hb3len]; omega)
  subst hser
  refine ⟨Page.new (Header.new pt' pn np (some (.Int32 (4096 - 15
      - ((tb1.length : Int) + 5)
      - ((15 * szs'.length + szs'.sum : Nat) : Int)))))
      (some sl') (some (specTuplesRev 0 (d0 :: ds'))),
    hdrB.length + SB.length, ?_, ?_, ?_⟩
  · unfold pageDeserialize
    rw [hHdrDec, optBind_some, hSlDec, optBind_some, hlast', optBind_some,
      hσ0'off, asInt_int, optBind_some, if_pos hg4.1, ← hNE, hTplDec,
      optBind_some]
  · rw [hdata0]
    rfl
  · exact hdata0

/-- The page obtained by appending the single tuple `[Int32 7]` to a
fresh `DATA` page: slot size 15 + tuple size 20 (15 bytes plus the 5-byte
first-append reservation) leave `free_space = 4061` and `offset = 4075`. -/
def c2page : Page :=
  ⟨⟨.Data (.Varchar strDATA), .Int32 4061, .Int32 0, .Int32 1, .Int32 1,
      .Int32 4075⟩,
    [⟨.Int32 1, .Int32 4075, .Int32 20⟩],
    [⟨.Int32 1, [.Int32 7]⟩]⟩

/-- C2 witness: appending the tuple `[Int32 7]` to a fresh `DATA` page,
serializing and deserializing round-trips the tuple deque. -/
theorem C2_page_roundtrip_witness :
    appendAll (Page.new (Header.new (.Data (.Varchar strDATA)) (.Int32 0)
        (.Int32 1) none) none none) [[.Int32 7]] = some c2page ∧
    ∃ buf, pageSerialize c2page = some buf ∧
      ∃ p' o, pageDeserialize buf 0 = some (p', o) ∧
        p'.data = c2page.data ∧ c2page.data = specTuplesRev 0 [[.Int32 7]] := by
  refine ⟨by decide, _, rfl, ?_⟩
  exact @C2_page_roundtrip (.Data (.Varchar strDATA)) (.Int32 0) (.Int32 1)
    [[.Int32 7]] c2page _ (Or.inl rfl) (by decide) (by decide) (by decide)
    (by decide) (by decide) rfl

/-- A single tuple of 808 `Int32` values: serialized size 4050 bytes, so
with tuple id (5) and the first-append reservation (5) it occupies
`S = 4055` of the fresh page's `free_space = 4096` — the append fits
(`15 + 4055 ≤ 4096`), the serializer's assert does not. -/
def c2bigTuple : List DataType := List.replicate 808 (.Int32 7)

/-- The fresh `DATA` page after appending `c2bigTuple`: the append
succeeds and leaves `free_space = 26`, `offset = 40`. -/
def c2bigPage : Page :=
  ⟨⟨.Data (.Varchar strDATA), .Int32 26, .Int32 0, .Int32 1, .Int32 1,
      .Int32 40⟩,
    [⟨.Int32 1, .Int32 40, .Int32 4055⟩],
    [⟨.Int32 1, c2bigTuple⟩]⟩

theorem serializeItems_replicate_int : ∀ (n : Nat) (k : Int),
    ∃ items, serializeItems dtSerialize (List.replicate n (.Int32 k))
      = some items ∧ items.length = 5 * n
  | 0, _ => ⟨[], rfl, rfl⟩
  | n + 1, k => by
      obtain ⟨items, hitems, hlen⟩ := serializeItems_replicate_int n k
      refine ⟨(0x02 :: natLeBytes 4 (toBits32 k)) ++ items, ?_, ?_⟩
      · rw [List.replicate_succ]
        simp only [serializeItems, dtSerialize, optBind_some, hitems]
      · simp only [List.length_append, List.length_cons, natLeBytes_length,
          hlen]
        omega

/-- The serialized form of the 808-`Int32` tuple: 4050 bytes. -/
theorem c2big_tb : ∃ tb, tupleSerialize ⟨.Int32 1, c2bigTuple⟩ = some tb ∧
    tb.length = 4050 := by
  obtain ⟨items, hitems, hilen⟩ := serializeItems_replicate_int 808 7
  obtain ⟨lenB, hlenB⟩ := @dtSerialize_total (.Int32 (wrap32 808)) (by decide)
  have hlenBl : lenB.length = 5 := by
    have h := dtSerialize_length (by decide) hlenB
    simpa [dtWidth] using h
  refine ⟨(0x02 :: natLeBytes 4 (toBits32 1)) ++ (lenB ++ items), ?_, ?_⟩
  · simp only [tupleSerialize, serializeSeq, c2bigTuple, List.length_replicate]
    rw [show dtSerialize (.Int32 1) = some (0x02 :: natLeBytes 4 (toBits32 1))
      from rfl, hlenB, hitems]
    simp only [optBind_some]
  · simp only [List.length_append, List.length_cons, natLeBytes_length,
      hlenBl, hilen]

/-- The big append succeeds: `15 + 4055 ≤ 4096`. -/
theorem c2big_append :
    appendAll (Page.new (Header.new (.Data (.Varchar strDATA)) (.Int32 0)
        (.Int32 1) none) none none) [c2bigTuple] = some c2bigPage := by
  obtain ⟨tb, htb, htbl⟩ := c2big_tb
  have htb' : tupleSerialize ⟨.Int32 (0 + 1), c2bigTuple⟩ = some tb := by
    rw [show ((0 : Int) + 1) = 1 by norm_num]
    exact htb
  have hspec := @appendTuple_spec
    (Page.new (Header.new (.Data (.Varchar strDATA)) (.Int32 0) (.Int32 1)
      none) none none)
    c2bigTuple 0 4095 4096 ((tb.length : Int) + 5) tb rfl rfl rfl htb'
    (by rw [if_pos rfl])
  have happ1 := hspec.1 (by omega)
  simp only [appendAll]
  rw [happ1]
  simp only [optBind_some, appendAll]
  rw [htbl]
  norm_num [c2bigPage, Page.new, Header.new]

/-- The serializer rejects the big page: its assert demands the 4055-byte
tuple region fit after the 49-byte header and the 20-byte slot region,
and `4055 ≤ 4096 - 49 - 20` fails. -/
theorem c2big_serialize_none : pageSerialize c2bigPage = none := by
  obtain ⟨tb, htb, htbl⟩ := c2big_tb
  obtain ⟨ptB, hptB⟩ := @dtSerialize_total (.Varchar strDATA) (by decide)
  have hptl : ptB.length = 34 := by
    have h := dtSerialize_length (by decide) hptB
    simpa [dtWidth] using h
  obtain ⟨fsB, hfsB⟩ := @dtSerialize_total (.Int32 26) (by decide)
  have hfsl : fsB.length = 5 := by
    have h := dtSerialize_length (by decide) hfsB
    simpa [dtWidth] using h
  obtain ⟨pnB, hpnB⟩ := @dtSerialize_total (.Int32 0) (by decide)
  have hpnl : pnB.length = 5 := by
    have h := dtSerialize_length (by decide) hpnB
    simpa [dtWidth] using h
  obtain ⟨npB, hnpB⟩ := @dtSerialize_total (.Int32 1) (by decide)
  have hnpl : npB.length = 5 := by
    have h := dtSerialize_length (by decide) hnpB
    simpa [dtWidth] using h
  have hh : headerSerialize c2bigPage.header
      = some (ptB ++ fsB ++ pnB ++ npB) := by
    simp only [headerSerialize, c2bigPage, pageTypeSerialize]
    rw [hptB, hfsB, hpnB, hnpB]
    simp only [optBind_some]
  obtain ⟨lenB1, hlenB1⟩ := @dtSerialize_total (.Int32 (wrap32 1)) (by decide)
  have hlenB1l : lenB1.length = 5 := by
    have h := dtSerialize_length (by decide) hlenB1
    simpa [dtWidth] using h
  obtain ⟨sitems, hsit, hsitl⟩ := slots_serializeItems
    [⟨.Int32 1, .Int32 40, .Int32 4055⟩]
    (by
      intro σ hσ
      rw [List.mem_singleton] at hσ
      subst hσ
      exact ⟨1, 40, 4055, rfl, by decide, by decide, by decide⟩)
  have hsitl' : sitems.length = 15 := by simpa using hsitl
  have hsb : serializeSeq slotSerialize c2bigPage.slots
      = some (lenB1 ++ sitems) := by
    simp only [serializeSeq, c2bigPage, List.length_singleton]
    rw [hlenB1, hsit]
    simp only [optBind_some]
  have hti : serializeItems tupleSerialize [⟨.Int32 1, c2bigTuple⟩]
      = some (tb ++ []) := by
    simp only [serializeItems, htb, optBind_some]
  have htseq : serializeSeq tupleSerialize c2bigPage.data
      = some (lenB1 ++ (tb ++ [])) := by
    simp only [serializeSeq, c2bigPage, List.length_singleton]
    rw [hlenB1, hti]
    simp only [optBind_some]
  simp only [pageSerialize, MAX_PAGE_SIZE]
  rw [hh]
  simp only [optBind_some]
  rw [if_pos (by
    simp only [List.length_append, hptl, hfsl, hpnl, hnpl]
    omega)]
  rw [hsb]
  simp only [optBind_some]
  rw [if_pos (by
    simp only [List.length_append, hptl, hfsl, hpnl, hnpl, hlenB1l, hsitl']
    omega)]
  rw [htseq]
  simp only [optBind_some]
  rw [show asInt c2bigPage.header.offset = some 40 from rfl]
  simp only [optBind_some]
  rw [if_neg (by
    simp only [List.length_append, List.length_nil, hptl, hfsl, hpnl, hnpl,
      hlenB1l, hsitl', htbl]
    omega)]

/-- C2 counterexample to the frozen claim: the 808-`Int32` tuple is within
its declared constraints and every append to the fresh page succeeds, yet
`Page::serialize` panics (its assert demands the 4055-byte tuple region
fit after the 49-byte header and 20-byte slot region, and
`4055 ≤ 4096 - 49 - 20` fails), so no 4096-byte buffer is ever produced
and nothing can be deserialized. -/
theorem C2_page_roundtrip_counterexample :
    (∀ v ∈ c2bigTuple, wfDataType v) ∧
    appendAll (Page.new (Header.new (.Data (.Varchar strDATA)) (.Int32 0)
        (.Int32 1) none) none none) [c2bigTuple] = some c2bigPage ∧
      pageSerialize c2bigPage = none :=
  ⟨fun v hv => by rw [List.eq_of_mem_replicate hv]; decide,
    c2big_append, c2big_serialize_none⟩
